import Mathlib

/-!
Verification development for the six Python patch scripts of this repository
(fix-graphql-mocks.py, fix-simulation-mocks.py, fix-simulation-results.py,
fix-simulate-complete.py, fix-simulate-final.py, fix-simulate-vault.py).

Each script reads one hardcoded file, applies a fixed ordered list of
`re.sub` substitutions (plus, in fix-simulate-complete.py, one
insert-after-last-`re.finditer`-match step), and writes the result back.

The embedding has three layers:

* a small executable regex engine (`Rx`, `mrun`, `subRunF`) covering exactly
  the constructs used by the scripts' patterns: literal runs, single-character
  classes, greedy `+` / `*` / `?` over a character class, capture groups, and
  the word boundary `\b`, with Python's leftmost / greedy-backtracking match
  order and Python `re.sub`'s non-overlapping left-to-right scan over the
  original string;
* one pure text transformation per script, each a verbatim translation of the
  script's substitution sequence;
* a run model (`runScript`): file system as a map from paths to contents,
  the hardcoded path, the presence or absence of the `try/except` wrapper,
  and the resulting process exit status (Python exits with status 1 both on
  `sys.exit(1)` and on an uncaught exception).
-/

/-- Python `\w` restricted to its ASCII meaning: letters, digits, underscore.
The scripts only ever apply it to ASCII test-source text. -/
def isWordChar (c : Char) : Bool := c.isAlphanum || c = '_'

/-- Python `\s` restricted to its ASCII meaning. -/
def isSpaceChar (c : Char) : Bool :=
  c = ' ' || c = '\t' || c = '\n' || c = '\r' || c = '\x0b' || c = '\x0c'

/-- The character class written in the scripts as a single or double quote. -/
def isQuoteChar (c : Char) : Bool := c = '\x27' || c = '\x22'

/-- The character class `[0-9]`. -/
def isDigitChar (c : Char) : Bool := '0' ≤ c && c ≤ '9'

/-- Regular-expression fragment sufficient for every pattern occurring in the
six scripts.  Repetition operators only ever apply to one-character classes in
those patterns, so `many1` / `many0` / `opt1` take a character class directly;
this keeps the matcher structurally recursive. -/
inductive Rx where
  | lit : List Char → Rx
  | cls : (Char → Bool) → Rx
  | many1 : (Char → Bool) → Rx
  | many0 : (Char → Bool) → Rx
  | opt1 : (Char → Bool) → Rx
  | seq : Rx → Rx → Rx
  | grp : Nat → Rx → Rx
  | wordB : Rx

/-- Captured groups of one match: association list from group index to text. -/
abbrev Caps := List (Nat × List Char)

def getCap (n : Nat) (cp : Caps) : List Char :=
  match cp.find? (fun p => p.1 = n) with
  | some p => p.2
  | none => []

/-- Word-character test on the optional character left or right of a position
(`none` at the ends of the string, as in Python's `\b`). -/
def isWordO : Option Char → Bool
  | none => false
  | some c => isWordChar c

/-- Candidate continuations of a greedy `c*` over class `f`, longest first,
each paired with the character immediately before the continuation. -/
def greedyTails (f : Char → Bool) (prev : Option Char) : List Char → List (List Char × Option Char)
  | [] => [([], prev)]
  | c :: rest =>
      if f c then greedyTails f (some c) rest ++ [(c :: rest, prev)]
      else [(c :: rest, prev)]

/-- Backtracking matcher.  `mrun r prev s` lists every way `r` can match a
prefix of `s` (given that `prev` is the character just before `s`), in
Python's preference order (greedy repetitions try longer first; `seq` is
ordered lexicographically).  Each result is the remaining suffix, the
character just before it, and the captures. -/
def mrun : Rx → Option Char → List Char → List (List Char × Option Char × Caps)
  | .lit w, prev, s =>
      if w.isPrefixOf s then
        [(s.drop w.length, (match w.getLast? with | some c => some c | none => prev), [])]
      else []
  | .cls f, _, s =>
      match s with
      | c :: rest => if f c then [(rest, some c, [])] else []
      | [] => []
  | .many0 f, prev, s => (greedyTails f prev s).map (fun p => (p.1, p.2, []))
  | .many1 f, _, s =>
      match s with
      | c :: rest =>
          if f c then (greedyTails f (some c) rest).map (fun p => (p.1, p.2, []))
          else []
      | [] => []
  | .opt1 f, prev, s =>
      match s with
      | c :: rest =>
          if f c then [(rest, some c, []), (c :: rest, prev, [])]
          else [(c :: rest, prev, [])]
      | [] => [([], prev, [])]
  | .seq a b, prev, s =>
      (mrun a prev s).flatMap (fun r =>
        (mrun b r.2.1 r.1).map (fun r2 => (r2.1, r2.2.1, r.2.2 ++ r2.2.2)))
  | .grp n a, prev, s =>
      (mrun a prev s).map (fun r => (r.1, r.2.1, r.2.2 ++ [(n, s.take (s.length - r.1.length))]))
  | .wordB, prev, s =>
      if isWordO prev ≠ isWordO s.head? then [(s, prev, [])] else []

/-- The match Python's engine reports at this position, if any: the first
candidate in preference order. -/
def firstMatch (rx : Rx) (prev : Option Char) (s : List Char) :
    Option (List Char × Option Char × Caps) :=
  (mrun rx prev s).head?

/-- A replacement: a function of the whole matched text and the captures
(constant-string replacements ignore both; `\1`-style templates and
replacement functions read the captures). -/
abbrev Repl := List Char → Caps → List Char

/-- Fuelled scanner implementing Python `re.sub`: walk left to right over the
original string, at each position emit the preferred match's replacement and
continue after the match, otherwise copy one character.  `prev` is the
character before the current position (needed for `\b`).  Fuel is consumed
one unit per step; `pySub` supplies enough fuel for the whole string. -/
def subRunF (rx : Rx) (rep : Repl) : Nat → Option Char → List Char → List Char
  | 0, _, s => s
  | fuel + 1, prev, s =>
      match firstMatch rx prev s with
      | none =>
          match s with
          | [] => []
          | c :: rest => c :: subRunF rx rep fuel (some c) rest
      | some (rem, pv, cp) =>
          let k := s.length - rem.length
          if k = 0 then
            rep [] cp ++
              (match s with
               | [] => []
               | c :: rest => c :: subRunF rx rep fuel (some c) rest)
          else rep (s.take k) cp ++ subRunF rx rep fuel pv (s.drop k)

/-- Python `re.sub pattern repl s` for the patterns of this repository. -/
def pySub (rx : Rx) (rep : Repl) (s : List Char) : List Char :=
  subRunF rx rep (s.length + 1) none s

/-- End positions (in Python slice coordinates) of the successive
non-overlapping matches found by `re.finditer`, scanning like `subRunF`. -/
def findEndsF (rx : Rx) : Nat → Option Char → Nat → List Char → List Nat
  | 0, _, _, _ => []
  | fuel + 1, prev, pos, s =>
      match firstMatch rx prev s with
      | none =>
          match s with
          | [] => []
          | c :: rest => findEndsF rx fuel (some c) (pos + 1) rest
      | some (rem, pv, _) =>
          let k := s.length - rem.length
          if k = 0 then
            match s with
            | [] => [pos]
            | c :: rest => pos :: findEndsF rx fuel (some c) (pos + 1) rest
          else (pos + k) :: findEndsF rx fuel pv (pos + k) (s.drop k)

/-- End position of the last `re.finditer` match, if any match exists. -/
def lastMatchEnd (rx : Rx) (s : List Char) : Option Nat :=
  (findEndsF rx (s.length + 1) none 0 s).getLast?

/-- Does the scan of `re.sub` / `re.finditer` find at least one match? -/
def anyMatch (rx : Rx) : Option Char → List Char → Bool
  | prev, [] => (firstMatch rx prev []).isSome
  | prev, c :: rest => (firstMatch rx prev (c :: rest)).isSome || anyMatch rx (some c) rest

/-- Number of (possibly overlapping) occurrences of `w` as a substring. -/
def countOcc (w : List Char) : List Char → Nat
  | [] => 0
  | c :: rest => (if w.isPrefixOf (c :: rest) then 1 else 0) + countOcc w rest

/-- Literal pattern / constant-replacement helpers. -/
def rlit (s : String) : Rx := .lit s.toList

def rxSeq (l : List Rx) : Rx := l.foldr .seq (.lit [])

def constRepl (s : String) : Repl := fun _ _ => s.toList

def notBrace (c : Char) : Bool := c != '\x7d'

def notSemi (c : Char) : Bool := c != ';'

def notParen (c : Char) : Bool := c != ')'

def notQuoteSemi (c : Char) : Bool := !(isQuoteChar c) && c != ';'

/-! ## fix-graphql-mocks.py

`content = re.sub(r'\bgraphqlClient\.request\.mock',
                  'vi.mocked(graphqlClient).request.mock', content)` -/

def gqlLit : List Char := "graphqlClient.request.mock".toList

def gqlRx : Rx := .seq .wordB (.lit gqlLit)

def gqlRepl : List Char := "vi.mocked(graphqlClient).request.mock".toList

def fix_graphql_mocks_transform (s : List Char) : List Char :=
  pySub gqlRx (fun _ _ => gqlRepl) s

/-! ## fix-simulation-mocks.py

`re.sub(r'vi\.mocked\(simulateVaultManagement\)\.mockReturnValue\((\w+) as any\);',
        r'mockSimulateVaultManagement(\1);', content)` -/

def simMocksRx : Rx :=
  rxSeq [rlit "vi.mocked(simulateVaultManagement).mockReturnValue(",
         .grp 1 (.many1 isWordChar),
         rlit " as any);"]

def simMocksRepl : Repl := fun _ cp =>
  "mockSimulateVaultManagement(".toList ++ getCap 1 cp ++ ");".toList

def fix_all_simulation_mocks_transform (s : List Char) : List Char :=
  pySub simMocksRx simMocksRepl s

/-! ## fix-simulation-results.py

Four `(pattern, replacement)` pairs applied in order, then `as anyData`. -/

def simResultsRx (name : String) : Rx :=
  rxSeq [rlit ("const " ++ name ++ ": SimulationResult = \x7b"),
         .many1 notBrace,
         rlit "\x7d;"]

def blockMockSimulationResult : String := String.intercalate "\n"
  ["const mockSimulationResult: SimulationResult = \x7b",
   "    totalSupply: BigInt(\x272000000000000000000\x27),",
   "    totalAssets: BigInt(\x272000000000\x27),",
   "    feesAccrued: BigInt(\x2710000000\x27),",
   "    pricePerShare: BigInt(\x271050000000000000000\x27),",
   "  \x7d;"]

def blockWithdrawalResult (tyName : String) : String := String.intercalate "\n"
  ["const withdrawalResult: " ++ tyName ++ " = \x7b",
   "    totalSupply: BigInt(\x271500000000000000000\x27),",
   "    totalAssets: BigInt(\x271500000000\x27),",
   "    feesAccrued: BigInt(\x275000000\x27),",
   "    pricePerShare: BigInt(\x271000000000000000000\x27),",
   "  \x7d;"]

def blockAppreciatedResult (tyName : String) : String := String.intercalate "\n"
  ["const appreciatedResult: " ++ tyName ++ " = \x7b",
   "    totalSupply: BigInt(\x272000000000000000000\x27),",
   "    totalAssets: BigInt(\x272100000000\x27),",
   "    feesAccrued: BigInt(\x2710000000\x27),",
   "    pricePerShare: BigInt(\x271100000000000000000\x27),",
   "  \x7d;"]

def blockNewVaultResult (tyName : String) : String := String.intercalate "\n"
  ["const newVaultResult: " ++ tyName ++ " = \x7b",
   "    totalSupply: BigInt(\x271000000000000000000\x27),",
   "    totalAssets: BigInt(\x271000000000\x27),",
   "    feesAccrued: BigInt(\x270\x27),",
   "    pricePerShare: BigInt(\x271000000000000000000\x27),",
   "  \x7d;"]

def fix_simulation_results_transform (s : List Char) : List Char :=
  let s1 := pySub (simResultsRx "mockSimulationResult") (constRepl blockMockSimulationResult) s
  let s2 := pySub (simResultsRx "withdrawalResult")
    (constRepl (blockWithdrawalResult "SimulationResult")) s1
  let s3 := pySub (simResultsRx "appreciatedResult")
    (constRepl (blockAppreciatedResult "SimulationResult")) s2
  let s4 := pySub (simResultsRx "newVaultResult")
    (constRepl (blockNewVaultResult "SimulationResult")) s3
  pySub (rlit "as anyData") (constRepl "as any") s4

/-! ## fix-simulate-complete.py -/

/-- `r'(import[^;]+from [\x27"][^\x27";]+[\x27"];)\n'` (the group adds
nothing to the match span, so it is dropped). -/
def importRx : Rx :=
  rxSeq [rlit "import",
         .many1 notSemi,
         rlit "from ",
         .cls isQuoteChar,
         .many1 notQuoteSemi,
         .cls isQuoteChar,
         rlit ";\n"]

def importsToAdd : List Char :=
  ("import type \x7b Vault, SimulationResult \x7d from \x27../../types/generated.js\x27;\n").toList

/-- The loop over `re.finditer` keeps the last match; the script inserts
`imports_to_add` at its end position (and does nothing when there is none). -/
def insertImports (s : List Char) : List Char :=
  match lastMatchEnd importRx s with
  | none => s
  | some e => s.take e ++ importsToAdd ++ s.drop e

/-- `r'const (\w+): SimulationResult = \{([^}]+)\};'` -/
def completeSimRx : Rx :=
  rxSeq [rlit "const ",
         .grp 1 (.many1 isWordChar),
         rlit ": SimulationResult = \x7b",
         .grp 2 (.many1 notBrace),
         rlit "\x7d;"]

/-- Body of `replace_simulation_result` (an f-string using group 1). -/
def completeSimRepl : Repl := fun _ cp =>
  "const ".toList ++ getCap 1 cp ++
    (String.intercalate "\n"
      [": SimulationResult = \x7b",
       "    totalSupply: BigInt(\x272000000000000000000\x27),",
       "    totalAssets: BigInt(\x272000000000\x27),",
       "    pricePerShare: BigInt(\x271050000000000000000\x27),",
       "    managementFees: BigInt(\x270\x27),",
       "    performanceFees: BigInt(\x270\x27),",
       "    excessReturns: BigInt(\x270\x27),",
       "    periodNetApr: 0,",
       "    linearNetApr: 0,",
       "    compoundedNetApr: 0,",
       "    totalAssetsAtEnd: BigInt(\x272000000000\x27),",
       "    totalSupplyAtEnd: BigInt(\x272000000000000000000\x27),",
       "  \x7d;"]).toList

def fix_simulate_vault_complete_transform (s : List Char) : List Char :=
  let s1 := insertImports s
  let s2 := pySub completeSimRx completeSimRepl s1
  let s3 := pySub (rlit "mockVault.state") (constRepl "(mockVault as any).state") s2
  let s4 := pySub (rlit "as Vault") (constRepl "as any") s3
  let s5 := pySub
    (rlit "vi.mocked(graphqlClient).request.mockResolvedValueOnce(\x7b vault: mockVault \x7d);")
    (constRepl "vi.mocked(graphqlClient).request.mockResolvedValueOnce(\x7b vault: mockVault \x7d as any);") s4
  pySub (rlit ".request.mockResolvedValueOnce(\x7b vault: mockVault \x7d)")
    (constRepl ".request.mockResolvedValueOnce(\x7b vault: mockVault \x7d as any)") s5

/-! ## fix-simulate-final.py -/

/-- Pattern 2a: `const withdrawalResult: LagoonSimulationResult =
\{\s*totalSupply: BigInt\([^}]+\}\s*totalAssets: BigInt\([^}]+\}\s*pricePerShare:
BigInt\([^}]+\}\s*\};` -/
def finalWithdrawalRx : Rx :=
  rxSeq [rlit "const withdrawalResult: LagoonSimulationResult = \x7b",
         .many0 isSpaceChar, rlit "totalSupply: BigInt(",
         .many1 notBrace, rlit "\x7d",
         .many0 isSpaceChar, rlit "totalAssets: BigInt(",
         .many1 notBrace, rlit "\x7d",
         .many0 isSpaceChar, rlit "pricePerShare: BigInt(",
         .many1 notBrace, rlit "\x7d",
         .many0 isSpaceChar, rlit "\x7d;"]

def finalAppreciatedRx : Rx :=
  rxSeq [rlit "const appreciatedResult: LagoonSimulationResult = \x7b",
         .many0 isSpaceChar, rlit "totalSupply: BigInt(",
         .many1 notBrace, rlit "\x7d",
         .many0 isSpaceChar, rlit "totalAssets: BigInt(",
         .many1 notBrace, rlit "\x7d",
         .many0 isSpaceChar, rlit "\x7d;"]

def finalNewVaultRx : Rx :=
  rxSeq [rlit "const newVaultResult: LagoonSimulationResult = \x7b",
         .many0 isSpaceChar, rlit "totalSupply: BigInt(",
         .many1 notBrace, rlit "\x7d",
         .many0 isSpaceChar, rlit "totalAssets: BigInt(",
         .many1 notBrace, rlit "\x7d",
         .many0 isSpaceChar, rlit "pricePerShare: BigInt(",
         .many1 notBrace, rlit "\x7d",
         .many0 isSpaceChar, rlit "\x7d;"]

/-- `r'vi\.mocked\(simulateVaultManagement\)\.mockReturnValue\(([^)]+)\);'`
replaced by `r'vi.mocked(simulateVaultManagement).mockReturnValue(\1 as any);'` -/
def finalMockReturnRx : Rx :=
  rxSeq [rlit "vi.mocked(simulateVaultManagement).mockReturnValue(",
         .grp 1 (.many1 notParen),
         rlit ");"]

def finalMockReturnRepl : Repl := fun _ cp =>
  "vi.mocked(simulateVaultManagement).mockReturnValue(".toList ++ getCap 1 cp ++
    " as any);".toList

def fix_simulate_vault_final_transform (s : List Char) : List Char :=
  let s1 := pySub (rlit ": SimulationResult = \x7b")
    (constRepl ": LagoonSimulationResult = \x7b") s
  let s2 := pySub finalWithdrawalRx
    (constRepl (blockWithdrawalResult "LagoonSimulationResult")) s1
  let s3 := pySub finalAppreciatedRx
    (constRepl (blockAppreciatedResult "LagoonSimulationResult")) s2
  let s4 := pySub finalNewVaultRx
    (constRepl (blockNewVaultResult "LagoonSimulationResult")) s3
  let s5 := pySub finalMockReturnRx finalMockReturnRepl s4
  let s6 := pySub (rlit "\x7b vault: mockVault \x7d as any")
    (constRepl "\x7b vault: mockVault \x7d") s5
  pySub (rlit "(mockVault as any).state") (constRepl "(mockVault as any).state") s6

/-! ## fix-simulate-vault.py -/

/-- `vault_pattern`: `const mockVault: VaultData = \{[^}]+\{[^}]+\} as
const,[^}]+\{[^}]+\{[^}]+\} as const,[^}]+\{[^}]+\} as const,[^}]+\} as
const,[^}]+\} as VaultData;` -/
def vaultDataRx : Rx :=
  rxSeq [rlit "const mockVault: VaultData = \x7b",
         .many1 notBrace, rlit "\x7b",
         .many1 notBrace, rlit "\x7d as const,",
         .many1 notBrace, rlit "\x7b",
         .many1 notBrace, rlit "\x7b",
         .many1 notBrace, rlit "\x7d as const,",
         .many1 notBrace, rlit "\x7b",
         .many1 notBrace, rlit "\x7d as const,",
         .many1 notBrace, rlit "\x7d as const,",
         .many1 notBrace, rlit "\x7d as VaultData;"]

def mockVaultReplacement : String := String.intercalate "\n"
  ["  const mockVault: Vault = \x7b",
   "    id: \x27vault-test\x27,",
   "    address: \x270x1234567890123456789012345678901234567890\x27,",
   "    name: \x27Test Vault\x27,",
   "    symbol: \x27TEST\x27,",
   "    decimals: 18,",
   "    description: \x27Test vault for simulation\x27,",
   "    shortDescription: \x27Test vault\x27,",
   "    isVisible: true,",
   "    inception: 1700000000,",
   "    maxCapacity: \x2710000000000000000000000\x27,",
   "    logoUrl: \x27https://example.com/test.png\x27,",
   "    asset: \x7b",
   "      id: \x27asset-usdc\x27,",
   "      address: \x270xabcdef1234567890abcdef1234567890abcdef12\x27,",
   "      symbol: \x27USDC\x27,",
   "      name: \x27USD Coin\x27,",
   "      decimals: 6,",
   "      network: \x27Arbitrum\x27,",
   "      logoUrl: \x27https://example.com/usdc.png\x27,",
   "    \x7d,",
   "    chain: \x7b",
   "      id: \x2742161\x27,",
   "      name: \x27Arbitrum\x27,",
   "      nativeToken: \x27ETH\x27,",
   "      factory: \x270xfactory123\x27,",
   "      isVisible: true,",
   "      logoUrl: \x27https://example.com/arbitrum.png\x27,",
   "    \x7d,",
   "    state: \x7b",
   "      totalSupply: \x271000000000000000000\x27,",
   "      totalAssets: \x271000000000\x27,",
   "      totalAssetsUsd: 1000.0,",
   "      totalSharesIssued: \x271000000000000000000\x27,",
   "      highWaterMark: \x271000000000\x27,",
   "      lastFeeTime: \x271700000000\x27,",
   "      managementFee: \x27200\x27,",
   "      performanceFee: \x271000\x27,",
   "      version: \x27v1\x27,",
   "      safeAssetBalance: \x27500000000\x27,",
   "      pendingSiloBalances: \x7b",
   "        assets: \x27100000000\x27,",
   "        shares: \x27100000000000000000\x27,",
   "      \x7d,",
   "      pendingSettlement: \x7b",
   "        assets: \x2750000000\x27,",
   "        shares: \x2750000000000000000\x27,",
   "      \x7d,",
   "    \x7d,",
   "    airdrops: [],",
   "    incentives: [],",
   "    nativeYields: [],",
   "    curators: [",
   "      \x7b",
   "        id: \x27curator-test\x27,",
   "        name: \x27Test Curator\x27,",
   "        description: \x27Test curator for simulation\x27,",
   "        logoUrl: \x27https://example.com/curator.png\x27,",
   "      \x7d,",
   "    ],",
   "  \x7d as Vault;"]

/-- `r'(\s+)feesAccrued: BigInt\([\x27"][0-9]+[\x27"]\),?\n'`, replaced by
the empty string. -/
def feesRx : Rx :=
  rxSeq [.grp 1 (.many1 isSpaceChar),
         rlit "feesAccrued: BigInt(",
         .cls isQuoteChar,
         .many1 isDigitChar,
         .cls isQuoteChar,
         rlit ")",
         .opt1 (fun c => c == ','),
         rlit "\n"]

def jsonParseLit : String :=
  "const content = JSON.parse(result.content[0].text) as Record<string, unknown>;"

def jsonParseRepl : String :=
  "const content = JSON.parse(result.content[0].text as string) as Record<string, unknown>;"

def fix_simulate_vault_test_transform (s : List Char) : List Char :=
  let s1 := pySub vaultDataRx (constRepl mockVaultReplacement) s
  let s2 := pySub feesRx (constRepl "") s1
  pySub (rlit jsonParseLit) (constRepl jsonParseRepl) s2

/-! ## Rules as data, and the run model -/

/-- One patch rule: a `re.sub` substitution, or fix-simulate-complete.py's
insert-after-the-last-`finditer`-match step. -/
inductive Rule where
  | subst : Rx → Repl → Rule
  | insertAfterLast : Rx → List Char → Rule

def applyRule : Rule → List Char → List Char
  | .subst rx rep, s => pySub rx rep s
  | .insertAfterLast rx ins, s =>
      match lastMatchEnd rx s with
      | none => s
      | some e => s.take e ++ ins ++ s.drop e

/-- Sequential composition of rules, each output feeding the next input. -/
def applyRules (rs : List Rule) (s : List Char) : List Char :=
  rs.foldl (fun t r => applyRule r t) s

/-- Does the rule's pattern match anywhere in `s`? -/
def ruleFires : Rule → List Char → Bool
  | .subst rx _, s => anyMatch rx none s
  | .insertAfterLast rx _, s => anyMatch rx none s

def gqlRules : List Rule := [.subst gqlRx (fun _ _ => gqlRepl)]

def simMocksRules : List Rule := [.subst simMocksRx simMocksRepl]

def simResultsRules : List Rule :=
  [.subst (simResultsRx "mockSimulationResult") (constRepl blockMockSimulationResult),
   .subst (simResultsRx "withdrawalResult") (constRepl (blockWithdrawalResult "SimulationResult")),
   .subst (simResultsRx "appreciatedResult") (constRepl (blockAppreciatedResult "SimulationResult")),
   .subst (simResultsRx "newVaultResult") (constRepl (blockNewVaultResult "SimulationResult")),
   .subst (rlit "as anyData") (constRepl "as any")]

def completeRules : List Rule :=
  [.insertAfterLast importRx importsToAdd,
   .subst completeSimRx completeSimRepl,
   .subst (rlit "mockVault.state") (constRepl "(mockVault as any).state"),
   .subst (rlit "as Vault") (constRepl "as any"),
   .subst (rlit "vi.mocked(graphqlClient).request.mockResolvedValueOnce(\x7b vault: mockVault \x7d);")
     (constRepl "vi.mocked(graphqlClient).request.mockResolvedValueOnce(\x7b vault: mockVault \x7d as any);"),
   .subst (rlit ".request.mockResolvedValueOnce(\x7b vault: mockVault \x7d)")
     (constRepl ".request.mockResolvedValueOnce(\x7b vault: mockVault \x7d as any)")]

def finalRules : List Rule :=
  [.subst (rlit ": SimulationResult = \x7b") (constRepl ": LagoonSimulationResult = \x7b"),
   .subst finalWithdrawalRx (constRepl (blockWithdrawalResult "LagoonSimulationResult")),
   .subst finalAppreciatedRx (constRepl (blockAppreciatedResult "LagoonSimulationResult")),
   .subst finalNewVaultRx (constRepl (blockNewVaultResult "LagoonSimulationResult")),
   .subst finalMockReturnRx finalMockReturnRepl,
   .subst (rlit "\x7b vault: mockVault \x7d as any") (constRepl "\x7b vault: mockVault \x7d"),
   .subst (rlit "(mockVault as any).state") (constRepl "(mockVault as any).state")]

def vaultTestRules : List Rule :=
  [.subst vaultDataRx (constRepl mockVaultReplacement),
   .subst feesRx (constRepl ""),
   .subst (rlit jsonParseLit) (constRepl jsonParseRepl)]

/-- One script: the hardcoded target path, the pure text transformation its
body performs, the same transformation as a rule list, and whether the body
is wrapped in the `try/except` handler (all scripts except
fix-graphql-mocks.py, whose body is bare module-level code). -/
structure Script where
  path : String
  transform : List Char → List Char
  rules : List Rule
  guarded : Bool

def testsPath : String :=
  "/Users/francoisschuers/Documents/workspace/lagoon-mcp/tests/tools/get-price-history.test.ts"

def srcTestsPath : String :=
  "/Users/francoisschuers/Documents/workspace/lagoon-mcp/src/tools/__tests__/simulate-vault.test.ts"

def gqlScript : Script :=
  ⟨testsPath, fix_graphql_mocks_transform, gqlRules, false⟩

def simMocksScript : Script :=
  ⟨srcTestsPath, fix_all_simulation_mocks_transform, simMocksRules, true⟩

def simResultsScript : Script :=
  ⟨srcTestsPath, fix_simulation_results_transform, simResultsRules, true⟩

def completeScript : Script :=
  ⟨srcTestsPath, fix_simulate_vault_complete_transform, completeRules, true⟩

def finalScript : Script :=
  ⟨srcTestsPath, fix_simulate_vault_final_transform, finalRules, true⟩

def vaultTestScript : Script :=
  ⟨srcTestsPath, fix_simulate_vault_test_transform, vaultTestRules, true⟩

def scripts : List Script :=
  [gqlScript, simMocksScript, simResultsScript, completeScript, finalScript, vaultTestScript]

/-- File system: map from absolute path to file contents. -/
abbrev FileSys := String → Option (List Char)

/-- Outcome of one script process: normal termination with an exit status
(either `sys.exit(0 if success else 1)` or falling off the end of the module),
or termination by an uncaught exception. -/
inductive ExecResult where
  | finished : Nat → FileSys → ExecResult
  | uncaught : FileSys → ExecResult

def updateFS (fs : FileSys) (p : String) (v : List Char) : FileSys :=
  fun q => if q = p then some v else fs q

/-- Run one script against a file system.  Reading a missing file raises; a
guarded script catches this, prints and returns `False` (so exits 1), while
the unguarded script lets the exception escape.  When the read succeeds the
transformed text is written back to the same path. -/
def runScript (sc : Script) (fs : FileSys) : ExecResult :=
  match fs sc.path with
  | some c => .finished 0 (updateFS fs sc.path (sc.transform c))
  | none => if sc.guarded then .finished 1 fs else .uncaught fs

/-- The process exit status: CPython exits with status 1 on an uncaught
exception. -/
def exitCode : ExecResult → Nat
  | .finished e _ => e
  | .uncaught _ => 1

def resultFS : ExecResult → FileSys
  | .finished _ fs => fs
  | .uncaught fs => fs

/-- Did the run end with the failure caught by the script's own handler
(printed message, `sys.exit(1)`), as opposed to an uncaught exception? -/
def isCaughtFailure : ExecResult → Bool
  | .finished 1 _ => true
  | _ => false

def isUncaught : ExecResult → Bool
  | .uncaught _ => true
  | _ => false

def emptyFS : FileSys := fun _ => none

def fsVault : FileSys := updateFS emptyFS srcTestsPath []

def fsOther : FileSys := updateFS emptyFS "unrelated.txt" []

def finalIdemInput : List Char :=
  "vi.mocked(simulateVaultManagement).mockReturnValue(mockResult);".toList

def c6junk : List Char :=
  ("    feesAccr \nfeesAccrued: BigInt(\x279\x27),\nued: BigInt(\x2710000000\x27),\n    pricePerShare: BigInt(\x271050000000000000000\x27),\n").toList

def c6input : List Char :=
  c6junk ++ ("const mockSimulationResult: SimulationResult = \x7bx\x7d;").toList

def feesLine : List Char := ("feesAccrued: BigInt(\x2710000000\x27),").toList

def feesWord : List Char := "feesAccrued".toList

/-- Specialised scanner for the fix-graphql-mocks.py rule: the word-boundary
test reduces to "previous character is not a word character" because the
pattern starts with the word character `g`. -/
def gqlScan : Bool → List Char → List Char
  | _, [] => []
  | p, c :: rest =>
      if p = false ∧ gqlLit.isPrefixOf (c :: rest) then
        gqlRepl ++ gqlScan true (rest.drop 25)
      else c :: gqlScan (isWordChar c) rest
termination_by _ s => s.length
decreasing_by
  all_goals simp [List.length_drop]
  omega

/-- Does the fix-graphql-mocks.py pattern match anywhere, scanning with
word-state `p`? -/
def gqlHas : Bool → List Char → Bool
  | _, [] => false
  | p, c :: rest =>
      (!p && gqlLit.isPrefixOf (c :: rest)) || gqlHas (isWordChar c) rest

/-- Word-state after scanning past a text chunk. -/
def stateAfter : Bool → List Char → Bool
  | p, [] => p
  | _, c :: a => stateAfter (isWordChar c) a

def gqlCex : List Char := "agraphqlClient.request.mock".toList

/-- Conditions under which one substitution rule can neither destroy nor
create occurrences of a reference string `T`: every match text and every
replacement text refuses, at each of its positions, to begin `T` or any
nonempty suffix of `T`, whatever text follows. -/
def RuleSafe (rx : Rx) (rep : Repl) (T : List Char) : Prop :=
  ∀ prev s r, r ∈ mrun rx prev s →
    0 < s.length - r.1.length ∧
    (∀ l ∈ T.tails, l ≠ [] → ∀ x,
      l.isPrefixOf (s.take (s.length - r.1.length) ++ x) = false) ∧
    (∀ l ∈ T.tails, l ≠ [] → ∀ x,
      l.isPrefixOf (rep (s.take (s.length - r.1.length)) r.2.2 ++ x) = false) ∧
    (∀ i, i < s.length - r.1.length → ∀ x,
      T.isPrefixOf ((s.take (s.length - r.1.length)).drop i ++ x) = false) ∧
    (∀ i, i < (rep (s.take (s.length - r.1.length)) r.2.2).length → ∀ x,
      T.isPrefixOf ((rep (s.take (s.length - r.1.length)) r.2.2).drop i ++ x) = false)

def completeBlockTail : List Char :=
  (String.intercalate "\n"
    [": SimulationResult = \x7b",
     "    totalSupply: BigInt(\x272000000000000000000\x27),",
     "    totalAssets: BigInt(\x272000000000\x27),",
     "    pricePerShare: BigInt(\x271050000000000000000\x27),",
     "    managementFees: BigInt(\x270\x27),",
     "    performanceFees: BigInt(\x270\x27),",
     "    excessReturns: BigInt(\x270\x27),",
     "    periodNetApr: 0,",
     "    linearNetApr: 0,",
     "    compoundedNetApr: 0,",
     "    totalAssetsAtEnd: BigInt(\x272000000000\x27),",
     "    totalSupplyAtEnd: BigInt(\x272000000000000000000\x27),",
     "  \x7d;"]).toList

/-! ## C9: the import-insertion rule of fix-simulate-complete.py -/

/-- Character standing just before the remainder after consuming `w` (the
matcher's threading of the previous character through a literal or a greedy
run). -/
def prevOut (w : List Char) (prev : Option Char) : Option Char :=
  match w.getLast? with
  | some c => some c
  | none => prev

/-- Rules 2-6 of fix-simulate-complete.py: everything the script does after
the import-insertion step. -/
def afterImports (s : List Char) : List Char :=
  let s2 := pySub completeSimRx completeSimRepl s
  let s3 := pySub (rlit "mockVault.state") (constRepl "(mockVault as any).state") s2
  let s4 := pySub (rlit "as Vault") (constRepl "as any") s3
  let s5 := pySub
    (rlit "vi.mocked(graphqlClient).request.mockResolvedValueOnce(\x7b vault: mockVault \x7d);")
    (constRepl "vi.mocked(graphqlClient).request.mockResolvedValueOnce(\x7b vault: mockVault \x7d as any);") s4
  pySub (rlit ".request.mockResolvedValueOnce(\x7b vault: mockVault \x7d)")
    (constRepl ".request.mockResolvedValueOnce(\x7b vault: mockVault \x7d as any)") s5

/-! ## Theorems -/

/-! ## Shared lemmas -/

/-- Each script's transformation is exactly its rule list folded in order. -/
theorem transform_eq_applyRules :
    ∀ sc ∈ scripts, ∀ s, sc.transform s = applyRules sc.rules s := by
  intro sc hsc s
  simp only [scripts, List.mem_cons, List.not_mem_nil, or_false] at hsc
  rcases hsc with rfl | rfl | rfl | rfl | rfl | rfl <;>
    simp only [gqlScript, simMocksScript, simResultsScript, completeScript, finalScript,
      vaultTestScript, applyRules, gqlRules, simMocksRules, simResultsRules, completeRules,
      finalRules, vaultTestRules, List.foldl_cons, List.foldl_nil, applyRule,
      fix_graphql_mocks_transform, fix_all_simulation_mocks_transform,
      fix_simulation_results_transform, fix_simulate_vault_complete_transform,
      fix_simulate_vault_final_transform, fix_simulate_vault_test_transform, insertImports]

/-- A scan that never finds a match copies the string unchanged. -/
theorem subRunF_id_of_noMatch (rx : Rx) (rep : Repl) :
    ∀ fuel prev s, anyMatch rx prev s = false → subRunF rx rep fuel prev s = s := by
  intro fuel
  induction fuel with
  | zero => intro prev s _; rfl
  | succ n ih =>
    intro prev s h
    cases s with
    | nil =>
      have h1 : (firstMatch rx prev []).isSome = false := by simpa [anyMatch] using h
      have hn : firstMatch rx prev [] = none := by
        cases hfm : firstMatch rx prev [] <;> simp [hfm] at h1 ⊢
      simp [subRunF, hn]
    | cons c rest =>
      rw [anyMatch, Bool.or_eq_false_iff] at h
      obtain ⟨h1, h2⟩ := h
      have hn : firstMatch rx prev (c :: rest) = none := by
        cases hfm : firstMatch rx prev (c :: rest) <;> simp [hfm] at h1 ⊢
      simp [subRunF, hn, ih (some c) rest h2]

theorem pySub_id_of_noMatch (rx : Rx) (rep : Repl) (s : List Char)
    (h : anyMatch rx none s = false) : pySub rx rep s = s :=
  subRunF_id_of_noMatch rx rep (s.length + 1) none s h

/-- A scan that never finds a match reports no `finditer` matches. -/
theorem findEndsF_eq_nil (rx : Rx) :
    ∀ fuel prev pos s, anyMatch rx prev s = false → findEndsF rx fuel prev pos s = [] := by
  intro fuel
  induction fuel with
  | zero => intro prev pos s _; rfl
  | succ n ih =>
    intro prev pos s h
    cases s with
    | nil =>
      have h1 : (firstMatch rx prev []).isSome = false := by simpa [anyMatch] using h
      have hn : firstMatch rx prev [] = none := by
        cases hfm : firstMatch rx prev [] <;> simp [hfm] at h1 ⊢
      simp [findEndsF, hn]
    | cons c rest =>
      rw [anyMatch, Bool.or_eq_false_iff] at h
      obtain ⟨h1, h2⟩ := h
      have hn : firstMatch rx prev (c :: rest) = none := by
        cases hfm : firstMatch rx prev (c :: rest) <;> simp [hfm] at h1 ⊢
      simp [findEndsF, hn, ih (some c) (pos + 1) rest h2]

theorem lastMatchEnd_eq_none (rx : Rx) (s : List Char)
    (h : anyMatch rx none s = false) : lastMatchEnd rx s = none := by
  simp [lastMatchEnd, findEndsF_eq_nil rx (s.length + 1) none 0 s h]

/-- A rule whose pattern does not occur leaves the text unchanged. -/
theorem applyRule_id_of_not_fires (r : Rule) (s : List Char)
    (h : ruleFires r s = false) : applyRule r s = s := by
  cases r with
  | subst rx rep => exact pySub_id_of_noMatch rx rep s h
  | insertAfterLast rx ins => simp [applyRule, lastMatchEnd_eq_none rx s h]

theorem applyRules_id_of_not_fires (rs : List Rule) (s : List Char)
    (h : ∀ r ∈ rs, ruleFires r s = false) : applyRules rs s = s := by
  induction rs with
  | nil => rfl
  | cons r rs ih =>
    have hr := applyRule_id_of_not_fires r s (h r (by simp))
    calc applyRules (r :: rs) s = applyRules rs (applyRule r s) := rfl
      _ = applyRules rs s := by rw [hr]
      _ = s := ih (fun r' hr' => h r' (by simp [hr']))

/-- Substituting a literal by itself never changes the text. -/
theorem subRunF_lit_self (w : List Char) (hw : w ≠ []) :
    ∀ fuel prev s, subRunF (.lit w) (fun _ _ => w) fuel prev s = s := by
  intro fuel
  induction fuel with
  | zero => intro prev s; rfl
  | succ n ih =>
    intro prev s
    by_cases hp : w.isPrefixOf s
    · obtain ⟨t, rfl⟩ := List.isPrefixOf_iff_prefix.mp hp
      have hk : (w ++ t).length - ((w ++ t).drop w.length).length = w.length := by
        simp [List.length_append]
      have hk0 : w.length ≠ 0 := by
        simpa [List.length_eq_zero] using hw
      simp [subRunF, firstMatch, mrun, hp, hk, hk0, List.take_left, List.drop_left, ih]
    · have hfm : firstMatch (.lit w) prev s = none := by
        simp [firstMatch, mrun, hp]
      cases s with
      | nil => simp [subRunF, hfm]
      | cons c rest => simp [subRunF, hfm, ih]

/-! ## Claim theorems -/

/-- C1: the spec claims that in every script the whole read-transform-write
sequence sits inside one broad failure handler that catches any failure,
prints and exits nonzero.  This is false for fix-graphql-mocks.py, whose
module-level body has no `try/except` at all: on a missing target file the
exception escapes uncaught instead of being caught. -/
theorem error_handling_counterexample :
    isCaughtFailure (runScript gqlScript emptyFS) = false ∧
    isUncaught (runScript gqlScript emptyFS) = true :=
  ⟨rfl, rfl⟩

/-- C1 (amended): the five function-based scripts catch a failing read and
finish with exit status 1, while fix-graphql-mocks.py propagates the
exception uncaught. -/
theorem error_handling_amended :
    (∀ sc ∈ [simMocksScript, simResultsScript, completeScript, finalScript, vaultTestScript],
      ∀ fs : FileSys, fs sc.path = none → runScript sc fs = .finished 1 fs) ∧
    (∀ fs : FileSys, fs gqlScript.path = none → runScript gqlScript fs = .uncaught fs) := by
  constructor
  · intro sc hsc fs h
    simp only [List.mem_cons, List.not_mem_nil, or_false] at hsc
    rcases hsc with rfl | rfl | rfl | rfl | rfl <;>
      · rw [runScript, h]; exact rfl
  · intro fs h
    rw [runScript, h]; exact rfl

theorem error_handling_witness :
    runScript simMocksScript emptyFS = .finished 1 emptyFS ∧
    runScript gqlScript emptyFS = .uncaught emptyFS :=
  ⟨error_handling_amended.1 simMocksScript (by simp) emptyFS rfl,
   error_handling_amended.2 emptyFS rfl⟩

/-- C4: every script exits 0 on success and 1 on a caught failure; on a
missing target path the run exits 1 and the file system is untouched (the
unguarded script also exits 1, through the interpreter's handling of the
uncaught exception). -/
theorem exit_status_spec :
    ∀ sc ∈ scripts,
      (∀ fs : FileSys, ∀ c, fs sc.path = some c → exitCode (runScript sc fs) = 0) ∧
      (∀ fs : FileSys, fs sc.path = none →
        exitCode (runScript sc fs) = 1 ∧ resultFS (runScript sc fs) = fs) := by
  intro sc _
  refine ⟨fun fs c h => ?_, fun fs h => ?_⟩
  · simp [runScript, h, exitCode]
  · cases hg : sc.guarded <;> simp [runScript, h, hg, exitCode, resultFS]

theorem exit_status_witness :
    exitCode (runScript gqlScript emptyFS) = 1 ∧
    resultFS (runScript gqlScript emptyFS) = emptyFS :=
  (exit_status_spec gqlScript (by simp [scripts])).2 emptyFS rfl

/-- C5: each script's transformation is its substitution rules composed in
listed order, and a successful run writes the transformed text back to the
path that was read, overwriting it, touching no other file. -/
theorem sequential_composition_spec :
    ∀ sc ∈ scripts,
      (∀ s, sc.transform s = applyRules sc.rules s) ∧
      (∀ fs : FileSys, ∀ c, fs sc.path = some c →
        resultFS (runScript sc fs) sc.path = some (sc.transform c) ∧
        ∀ q, q ≠ sc.path → resultFS (runScript sc fs) q = fs q) := by
  intro sc hsc
  refine ⟨transform_eq_applyRules sc hsc, fun fs c h => ⟨?_, fun q hq => ?_⟩⟩
  · simp [runScript, h, resultFS, updateFS]
  · simp [runScript, h, resultFS, updateFS, hq]

theorem sequential_composition_witness :
    (vaultTestScript.transform [] = applyRules vaultTestScript.rules []) ∧
    resultFS (runScript vaultTestScript fsVault) vaultTestScript.path =
      some (vaultTestScript.transform []) ∧
    resultFS (runScript vaultTestScript fsVault) "other.ts" = fsVault "other.ts" := by
  have h := sequential_composition_spec vaultTestScript (by simp [scripts])
  have hc : fsVault vaultTestScript.path = some [] := by
    simp [fsVault, updateFS, vaultTestScript]
  exact ⟨h.1 [], (h.2 fsVault [] hc).1, (h.2 fsVault [] hc).2 "other.ts" (by decide)⟩

/-- C2: when none of a script's rule patterns occurs in the content, the
script leaves the content unchanged. -/
theorem noop_safety :
    ∀ sc ∈ scripts, ∀ s, (∀ r ∈ sc.rules, ruleFires r s = false) → sc.transform s = s := by
  intro sc hsc s h
  rw [transform_eq_applyRules sc hsc s]
  exact applyRules_id_of_not_fires sc.rules s h

theorem noop_safety_witness :
    simMocksScript.transform "const x = 1;".toList = "const x = 1;".toList :=
  noop_safety simMocksScript (by simp [scripts]) "const x = 1;".toList (by decide)

/-- C10: a script's observable behaviour (exit status and resulting content
at its target path) depends only on the content at that path: two file
systems agreeing there produce identical results.  In particular two runs on
identical input content produce identical output content. -/
theorem determinism_spec :
    ∀ sc ∈ scripts, ∀ fs1 fs2 : FileSys, fs1 sc.path = fs2 sc.path →
      exitCode (runScript sc fs1) = exitCode (runScript sc fs2) ∧
      resultFS (runScript sc fs1) sc.path = resultFS (runScript sc fs2) sc.path := by
  intro sc _ fs1 fs2 h
  unfold runScript
  rw [h]
  cases hc : fs2 sc.path with
  | none => cases hg : sc.guarded <;> simp [exitCode, resultFS, h]
  | some c => simp [exitCode, resultFS, updateFS]

theorem determinism_witness :
    exitCode (runScript gqlScript emptyFS) = exitCode (runScript gqlScript fsOther) ∧
    resultFS (runScript gqlScript emptyFS) gqlScript.path =
      resultFS (runScript gqlScript fsOther) gqlScript.path :=
  determinism_spec gqlScript (by simp [scripts]) emptyFS fsOther (by decide)

/-- C8: rule 5 of fix-simulate-final.py replaces `(mockVault as any).state`
by the identical string, so it is the identity on every input. -/
theorem final_rule5_identity :
    ∀ s : List Char,
      pySub (rlit "(mockVault as any).state") (constRepl "(mockVault as any).state") s = s := by
  intro s
  exact subRunF_lit_self ("(mockVault as any).state").toList (by decide)
    (s.length + 1) none s

/-- C7: fix-simulate-final.py is not idempotent: on an input containing
`vi.mocked(simulateVaultManagement).mockReturnValue(X);` its mockReturnValue
rule's replacement still matches the pattern, so a second run appends
` as any` again and the double application differs from the single one. -/
theorem final_not_idempotent :
    fix_simulate_vault_final_transform finalIdemInput =
      "vi.mocked(simulateVaultManagement).mockReturnValue(mockResult as any);".toList ∧
    fix_simulate_vault_final_transform (fix_simulate_vault_final_transform finalIdemInput) =
      "vi.mocked(simulateVaultManagement).mockReturnValue(mockResult as any as any);".toList ∧
    fix_simulate_vault_final_transform (fix_simulate_vault_final_transform finalIdemInput) ≠
      fix_simulate_vault_final_transform finalIdemInput := by
  refine ⟨by decide, by decide, by decide⟩

set_option maxRecDepth 40000 in
/-- C6: the claim that running fix-simulate-vault.py after
fix-simulation-results.py removes every `feesAccrued: BigInt('<digits>'),`
line is false: on `c6input` the insertion rule of fix-simulation-results.py
fires (the transformed text contains the inserted line exactly once), yet
after fix-simulate-vault.py the final text still contains such a line — one
that even still matches the removal pattern itself — because the removal of
one match spliced the surrounding text into a new matching line. -/
theorem fees_removal_counterexample :
    ruleFires (.subst (simResultsRx "mockSimulationResult")
      (constRepl blockMockSimulationResult)) c6input = true ∧
    countOcc feesLine (fix_simulation_results_transform c6input) = 1 ∧
    countOcc feesLine
      (fix_simulate_vault_test_transform (fix_simulation_results_transform c6input)) = 1 ∧
    anyMatch feesRx none
      (fix_simulate_vault_test_transform (fix_simulation_results_transform c6input)) = true := by
  refine ⟨by decide, by decide, by decide, by decide⟩

set_option maxRecDepth 40000 in
/-- C6 (amended): fix-simulate-vault.py does remove the `feesAccrued` line
from each of the four replacement blocks that fix-simulation-results.py
inserts — on every one of the four blocks, which contain the field exactly
once, its output no longer contains `feesAccrued` at all — even though it
does not remove every such line from every larger text. -/
theorem fees_removal_amended :
    (countOcc feesWord blockMockSimulationResult.toList = 1 ∧
      countOcc feesWord
        (fix_simulate_vault_test_transform blockMockSimulationResult.toList) = 0) ∧
    (countOcc feesWord (blockWithdrawalResult "SimulationResult").toList = 1 ∧
      countOcc feesWord
        (fix_simulate_vault_test_transform (blockWithdrawalResult "SimulationResult").toList) = 0) ∧
    (countOcc feesWord (blockAppreciatedResult "SimulationResult").toList = 1 ∧
      countOcc feesWord
        (fix_simulate_vault_test_transform (blockAppreciatedResult "SimulationResult").toList) = 0) ∧
    (countOcc feesWord (blockNewVaultResult "SimulationResult").toList = 1 ∧
      countOcc feesWord
        (fix_simulate_vault_test_transform (blockNewVaultResult "SimulationResult").toList) = 0) := by
  refine ⟨⟨by decide, by decide⟩, ⟨by decide, by decide⟩, ⟨by decide, by decide⟩,
    ⟨by decide, by decide⟩⟩

theorem firstMatch_gql (prev : Option Char) (s : List Char) :
    firstMatch gqlRx prev s =
      if isWordO prev = false ∧ gqlLit.isPrefixOf s then
        some (s.drop gqlLit.length, some 'k', []) else none := by
  have hgl : gqlLit.getLast? = some 'k' := rfl
  by_cases hp : gqlLit <+: s
  · have hp' : gqlLit.isPrefixOf s := List.isPrefixOf_iff_prefix.mpr hp
    have hhead : isWordO s.head? = true := by
      obtain ⟨t, rfl⟩ := hp
      rfl
    cases hw : isWordO prev
    · simp [firstMatch, gqlRx, mrun, hp, hp', hgl, hw, hhead]
    · simp [firstMatch, gqlRx, mrun, hp, hp', hgl, hw, hhead]
  · have hp' : ¬ gqlLit.isPrefixOf s := by
      simpa [List.isPrefixOf_iff_prefix] using hp
    by_cases hb : isWordO prev ≠ isWordO s.head?
    · simp [firstMatch, gqlRx, mrun, hb, hp, hp']
    · simp [firstMatch, gqlRx, mrun, hb, hp, hp']

theorem anyMatch_gql_eq : ∀ (s : List Char) (prev : Option Char),
    anyMatch gqlRx prev s = gqlHas (isWordO prev) s := by
  intro s
  induction s with
  | nil =>
    intro prev
    have : gqlLit.isPrefixOf ([] : List Char) = false := rfl
    simp [anyMatch, gqlHas, firstMatch_gql, this]
  | cons c rest ih =>
    intro prev
    rw [anyMatch, firstMatch_gql, ih (some c)]
    have hio : isWordO (some c) = isWordChar c := rfl
    by_cases hc : isWordO prev = false ∧ gqlLit.isPrefixOf (c :: rest)
    · rw [if_pos hc]
      simp [gqlHas, hc.1, hc.2, hio]
    · rw [if_neg hc]
      cases hw : isWordO prev
      · have hpre : gqlLit.isPrefixOf (c :: rest) = false := by
          cases hpp : gqlLit.isPrefixOf (c :: rest)
          · rfl
          · exact absurd ⟨hw, hpp⟩ hc
        simp [gqlHas, hw, hpre, hio]
      · simp [gqlHas, hw, hio]

theorem subRunF_gql_unfold (n : Nat) (prev : Option Char) (s : List Char) :
    subRunF gqlRx (fun _ _ => gqlRepl) (n + 1) prev s =
      match firstMatch gqlRx prev s with
      | none =>
          match s with
          | [] => []
          | c :: rest => c :: subRunF gqlRx (fun _ _ => gqlRepl) n (some c) rest
      | some (rem, pv, _) =>
          let k := s.length - rem.length
          if k = 0 then
            gqlRepl ++
              (match s with
               | [] => []
               | c :: rest => c :: subRunF gqlRx (fun _ _ => gqlRepl) n (some c) rest)
          else gqlRepl ++ subRunF gqlRx (fun _ _ => gqlRepl) n pv (s.drop k) := rfl

theorem subRunF_gql_eq : ∀ (fuel : Nat) (prev : Option Char) (s : List Char),
    s.length ≤ fuel →
    subRunF gqlRx (fun _ _ => gqlRepl) fuel prev s = gqlScan (isWordO prev) s := by
  have h26 : gqlLit.length = 26 := rfl
  intro fuel
  induction fuel with
  | zero =>
    intro prev s h
    have hs : s = [] := List.eq_nil_of_length_eq_zero (Nat.le_zero.mp h)
    subst hs
    simp [subRunF, gqlScan]
  | succ n ih =>
    intro prev s h
    rw [subRunF_gql_unfold, firstMatch_gql]
    by_cases hcond : isWordO prev = false ∧ gqlLit.isPrefixOf s
    · rw [if_pos hcond]
      obtain ⟨t, rfl⟩ := List.isPrefixOf_iff_prefix.mp hcond.2
      have hrem : (gqlLit ++ t).drop gqlLit.length = t := List.drop_left gqlLit t
      have hk : (gqlLit ++ t).length - t.length = 26 := by
        simp [List.length_append, h26]
      have hlen : t.length ≤ n := by
        have h2 := h
        simp only [List.length_append, h26] at h2
        omega
      have hform : gqlLit ++ t = 'g' :: ("raphqlClient.request.mock".toList ++ t) := rfl
      have hdrop25 : ("raphqlClient.request.mock".toList ++ t).drop 25 = t :=
        List.drop_left' rfl
      simp only [hrem, hk]
      rw [if_neg (by omega : ¬ (26 = 0))]
      rw [show ((gqlLit ++ t).drop 26) = t from List.drop_left' h26]
      rw [ih (some 'k') t hlen]
      rw [hform, gqlScan, if_pos ⟨hcond.1, hform ▸ hcond.2⟩, hdrop25]
      rfl
    · rw [if_neg hcond]
      cases s with
      | nil => simp [gqlScan]
      | cons c rest =>
        have hlen : rest.length ≤ n := by
          simp only [List.length_cons] at h
          omega
        show c :: subRunF gqlRx (fun _ _ => gqlRepl) n (some c) rest = _
        rw [ih (some c) rest hlen]
        rw [gqlScan, if_neg hcond]
        rfl

/-- If comparing `l` against `a` fails strictly inside `a`, then `l` is not a
prefix of `a ++ x` for any continuation `x`. -/
theorem prefix_append_eq_false : ∀ (l a : List Char),
    ¬ a.isPrefixOf l → ¬ l.isPrefixOf a → ∀ x, l.isPrefixOf (a ++ x) = false := by
  intro l
  induction l with
  | nil =>
    intro a _ h2 _
    exact absurd List.isPrefixOf_nil_left h2
  | cons b l' ih =>
    intro a h1 h2 x
    cases a with
    | nil => exact absurd List.isPrefixOf_nil_left h1
    | cons d a' =>
      rw [List.cons_append, List.isPrefixOf_cons₂]
      by_cases hbd : b = d
      · subst hbd
        have hbb : (b == b) = true := by simp
        rw [hbb, Bool.true_and]
        apply ih a'
        · intro hc
          exact h1 (by rw [List.isPrefixOf_cons₂]; simp [hc])
        · intro hc
          exact h2 (by rw [List.isPrefixOf_cons₂]; simp [hc])
      · have hne : (b == d) = false := by simp [hbd]
        rw [hne, Bool.false_and]

/-- The scanner copies verbatim any chunk none of whose positions can start a
match, even allowing the match to continue past the chunk. -/
theorem gqlScan_append : ∀ (a : List Char),
    (∀ i, i < a.length → ¬ (a.drop i).isPrefixOf gqlLit ∧ ¬ gqlLit.isPrefixOf (a.drop i)) →
    ∀ (p : Bool) (x : List Char), gqlScan p (a ++ x) = a ++ gqlScan (stateAfter p a) x := by
  intro a
  induction a with
  | nil => intro _ p x; simp [stateAfter]
  | cons c a' ih =>
    intro ha p x
    have h0 := ha 0 (by simp)
    simp only [List.drop_zero] at h0
    rw [List.cons_append, gqlScan]
    rw [if_neg ?hc]
    case hc =>
      rintro ⟨-, hpre⟩
      have hfalse := prefix_append_eq_false gqlLit (c :: a') h0.1 h0.2 x
      rw [List.cons_append] at hfalse
      rw [hfalse] at hpre
      exact Bool.false_ne_true hpre
    rw [ih (fun i hi => by simpa using ha (i + 1) (by simpa using Nat.succ_lt_succ hi))
        (isWordChar c) x]
    rfl

/-- Same chunk-copying fact for the match tester. -/
theorem gqlHas_append : ∀ (a : List Char),
    (∀ i, i < a.length → ¬ (a.drop i).isPrefixOf gqlLit ∧ ¬ gqlLit.isPrefixOf (a.drop i)) →
    ∀ (p : Bool) (x : List Char), gqlHas p (a ++ x) = gqlHas (stateAfter p a) x := by
  intro a
  induction a with
  | nil => intro _ p x; simp [stateAfter]
  | cons c a' ih =>
    intro ha p x
    have h0 := ha 0 (by simp)
    simp only [List.drop_zero] at h0
    rw [List.cons_append, gqlHas]
    have hfalse := prefix_append_eq_false gqlLit (c :: a') h0.1 h0.2 x
    rw [List.cons_append] at hfalse
    rw [hfalse, Bool.and_false, Bool.false_or]
    rw [ih (fun i hi => by simpa using ha (i + 1) (by simpa using Nat.succ_lt_succ hi))
        (isWordChar c) x]
    rfl

/-- A nonempty suffix of the pattern that is a prefix of the scanner's output
was already a prefix of the scanner's input: rewriting never manufactures new
partial occurrences of the pattern, because the replacement string contains
no `v`-free overlap with it. -/
theorem gqlScan_tail_prefix : ∀ (t : List Char) (p : Bool) (l : List Char),
    l ∈ gqlLit.tails → l ≠ [] → l.isPrefixOf (gqlScan p t) → l.isPrefixOf t := by
  have hv : ∀ m ∈ gqlLit.tails, m ≠ [] → m.head? ≠ some 'v' := by decide
  intro t
  induction t with
  | nil =>
    intro p l _ hne hpre
    rw [show gqlScan p [] = [] from by rw [gqlScan]] at hpre
    cases l with
    | nil => exact absurd rfl hne
    | cons x l' => exact absurd hpre (by simp)
  | cons c rest ih =>
    intro p l hl hne hpre
    rw [gqlScan] at hpre
    by_cases hc : p = false ∧ gqlLit.isPrefixOf (c :: rest)
    · rw [if_pos hc] at hpre
      exfalso
      cases l with
      | nil => exact hne rfl
      | cons x l' =>
        rw [show gqlRepl ++ gqlScan true (rest.drop 25) =
              'v' :: ("i.mocked(graphqlClient).request.mock".toList ++
                gqlScan true (rest.drop 25)) from rfl] at hpre
        rw [List.isPrefixOf_cons₂] at hpre
        have hx : x = 'v' := by
          rcases Bool.and_eq_true_iff.mp hpre with ⟨hxv, -⟩
          exact eq_of_beq hxv
        exact hv (x :: l') hl (by simp) (by rw [hx]; rfl)
    · rw [if_neg hc] at hpre
      cases l with
      | nil => exact absurd rfl hne
      | cons x l' =>
        rw [List.isPrefixOf_cons₂] at hpre ⊢
        rcases Bool.and_eq_true_iff.mp hpre with ⟨hxc, hl'⟩
        rw [hxc, Bool.true_and]
        by_cases hl'nil : l' = []
        · subst hl'nil
          exact List.isPrefixOf_nil_left
        · have hl'mem : l' ∈ gqlLit.tails := by
            rw [List.mem_tails] at hl ⊢
            exact (List.suffix_cons x l').trans hl
          exact ih (isWordChar c) l' hl'mem hl'nil hl'

/-- The rewritten text contains no match of the pattern: the replacement
cannot host or border a match, and copied text that could start a match would
already have matched. -/
theorem gqlHas_gqlScan_eq_false : ∀ (n : Nat) (t : List Char), t.length ≤ n →
    ∀ p, gqlHas p (gqlScan p t) = false := by
  intro n
  induction n with
  | zero =>
    intro t h p
    have ht : t = [] := List.eq_nil_of_length_eq_zero (Nat.le_zero.mp h)
    subst ht
    rw [show gqlScan p [] = [] from by rw [gqlScan]]
    rfl
  | succ n ih =>
    intro t h p
    cases t with
    | nil =>
      rw [show gqlScan p [] = [] from by rw [gqlScan]]
      rfl
    | cons c rest =>
      rw [gqlScan]
      by_cases hc : p = false ∧ gqlLit.isPrefixOf (c :: rest)
      · rw [if_pos hc]
        have hRok : ∀ i, i < gqlRepl.length →
            ¬ (gqlRepl.drop i).isPrefixOf gqlLit ∧ ¬ gqlLit.isPrefixOf (gqlRepl.drop i) := by
          decide
        rw [gqlHas_append gqlRepl hRok p (gqlScan true (rest.drop 25))]
        rw [show stateAfter p gqlRepl = true from rfl]
        apply ih
        simp only [List.length_cons] at h
        have := List.length_drop 25 rest
        omega
      · rw [if_neg hc]
        rw [gqlHas]
        rw [ih rest (by simp only [List.length_cons] at h; omega) (isWordChar c)]
        rw [Bool.or_false]
        cases hp : p
        · rw [Bool.not_false, Bool.true_and]
          by_cases hpre : gqlLit.isPrefixOf (c :: gqlScan (isWordChar c) rest) = true
          · exfalso
            have heq : c :: gqlScan (isWordChar c) rest = gqlScan p (c :: rest) := by
              rw [gqlScan, if_neg hc]
            rw [heq] at hpre
            have hmem : gqlLit ∈ gqlLit.tails := by
              rw [List.mem_tails]
            have hlit : gqlLit.isPrefixOf (c :: rest) :=
              gqlScan_tail_prefix (c :: rest) p gqlLit hmem (by decide) hpre
            exact hc ⟨hp, hlit⟩
          · exact Bool.not_eq_true _ ▸ Bool.of_not_eq_true hpre
        · rw [Bool.not_true, Bool.false_and]

/-- C3: the claim that the rule rewrites each occurrence of
`graphqlClient.request.mock` is false: with a word character right before it,
`\b` fails, the occurrence survives and nothing is rewritten. -/
theorem graphql_occurrence_counterexample :
    countOcc gqlLit gqlCex = 1 ∧
    fix_graphql_mocks_transform gqlCex = gqlCex := by
  exact ⟨by decide, by decide⟩

/-- C3 (amended): after one application of fix-graphql-mocks.py's rule the
pattern no longer matches anywhere in the output, so a second application
leaves the output unchanged — the transformation is idempotent on every
input; on the spec's example the rule rewrites `graphqlClient.request.mock`
to `vi.mocked(graphqlClient).request.mock`. -/
theorem graphql_rule_idempotent :
    (∀ s : List Char,
      anyMatch gqlRx none (fix_graphql_mocks_transform s) = false ∧
      fix_graphql_mocks_transform (fix_graphql_mocks_transform s) =
        fix_graphql_mocks_transform s) ∧
    fix_graphql_mocks_transform "graphqlClient.request.mock".toList =
      "vi.mocked(graphqlClient).request.mock".toList := by
  constructor
  · intro s
    have hb : fix_graphql_mocks_transform s = gqlScan false s :=
      subRunF_gql_eq (s.length + 1) none s (by omega)
    have hnom : anyMatch gqlRx none (fix_graphql_mocks_transform s) = false := by
      rw [hb, anyMatch_gql_eq]
      exact gqlHas_gqlScan_eq_false s.length s (le_refl _) false
    refine ⟨hnom, ?_⟩
    exact pySub_id_of_noMatch gqlRx (fun _ _ => gqlRepl) (fix_graphql_mocks_transform s) hnom
  · decide

theorem countOcc_nil (w : List Char) : countOcc w [] = 0 := rfl

theorem countOcc_cons (w : List Char) (c : Char) (rest : List Char) :
    countOcc w (c :: rest) =
      (if w.isPrefixOf (c :: rest) then 1 else 0) + countOcc w rest := rfl

theorem suffix_eq_drop {u s : List Char} (h : u <:+ s) :
    u = s.drop (s.length - u.length) := by
  obtain ⟨t, rfl⟩ := h
  rw [List.length_append, Nat.add_sub_cancel, List.drop_left]

theorem isPrefixOf_append_of_le : ∀ (l a x : List Char), l.length ≤ a.length →
    l.isPrefixOf (a ++ x) = l.isPrefixOf a := by
  intro l
  induction l with
  | nil => intro a x _; simp
  | cons b l' ih =>
    intro a x h
    cases a with
    | nil => simp at h
    | cons d a' =>
      rw [List.cons_append, List.isPrefixOf_cons₂, List.isPrefixOf_cons₂,
        ih a' x (by simp at h; omega)]

theorem isPrefixOf_append_split : ∀ (a l x : List Char), a.length ≤ l.length →
    l.isPrefixOf (a ++ x) = (a.isPrefixOf l && (l.drop a.length).isPrefixOf x) := by
  intro a
  induction a with
  | nil => intro l x _; simp
  | cons d a' ih =>
    intro l x h
    cases l with
    | nil => simp at h
    | cons b l' =>
      simp only [List.cons_append, List.isPrefixOf_cons₂, List.length_cons,
        List.drop_succ_cons]
      rw [ih l' x (by simp at h; omega)]
      cases hbd : b == d
      · have hdb : (d == b) = false := by
          rw [beq_eq_false_iff_ne] at hbd ⊢
          exact fun hc => hbd hc.symm
        simp [hdb]
      · have hdb : (d == b) = true := by
          rw [beq_iff_eq] at hbd ⊢
          exact hbd.symm
        simp [hdb, Bool.and_assoc]

theorem countOcc_append_no_spark : ∀ (T r b : List Char),
    (∀ i, i < r.length → T.isPrefixOf (r.drop i ++ b) = false) →
    countOcc T (r ++ b) = countOcc T b := by
  intro T r
  induction r with
  | nil => intro b _; rfl
  | cons c r' ih =>
    intro b hr
    rw [List.cons_append, countOcc]
    have h0 := hr 0 (by simp)
    rw [List.drop_zero, List.cons_append] at h0
    rw [h0]
    simp only [Bool.false_eq_true, if_false, Nat.zero_add]
    exact ih b (fun i hi => by
      have := hr (i + 1) (by simp; omega)
      simpa using this)

theorem countOcc_exists_decomp : ∀ (T u : List Char), countOcc T u ≠ 0 →
    ∃ a b, u = a ++ T ++ b := by
  intro T u
  induction u with
  | nil => intro h; exact absurd rfl h
  | cons c rest ih =>
    intro h
    rw [countOcc] at h
    by_cases hp : T.isPrefixOf (c :: rest)
    · obtain ⟨t, ht⟩ := List.isPrefixOf_iff_prefix.mp hp
      exact ⟨[], t, by simp [← ht]⟩
    · rw [if_neg hp] at h
      simp only [Nat.zero_add] at h
      obtain ⟨a, b, hab⟩ := ih h
      exact ⟨c :: a, b, by simp [hab]⟩

theorem prefix_agree_insert (T u b : List Char)
    (h2 : ∀ n, 0 < n → n < T.length → (T.take n).getLast? ≠ some '\n')
    (hu : u ≠ []) (hlast : u.getLast? = some '\n') :
    T.isPrefixOf (u ++ (T ++ b)) = T.isPrefixOf (u ++ b) := by
  by_cases hlen : T.length ≤ u.length
  · rw [isPrefixOf_append_of_le T u _ hlen, isPrefixOf_append_of_le T u b hlen]
  · push_neg at hlen
    have h1 : ¬ u.isPrefixOf T := by
      intro hc
      have hu' : u = T.take u.length := List.prefix_iff_eq_take.mp (List.isPrefixOf_iff_prefix.mp hc)
      exact h2 u.length (List.length_pos.mpr hu) hlen (hu' ▸ hlast)
    have h2' : ¬ T.isPrefixOf u := by
      intro hc
      have := (List.isPrefixOf_iff_prefix.mp hc).length_le
      omega
    rw [prefix_append_eq_false T u h1 h2' (T ++ b), prefix_append_eq_false T u h1 h2' b]

theorem countOcc_self_append (T b : List Char) (hT : T ≠ [])
    (h1 : ∀ j, 0 < j → j < T.length → (T.drop j).isPrefixOf T = false) :
    countOcc T (T ++ b) = countOcc T b + 1 := by
  cases hTc : T with
  | nil => exact absurd hTc hT
  | cons t0 T' =>
    have hself : T.isPrefixOf (T ++ b) := by
      rw [isPrefixOf_append_of_le T T b (le_refl _)]
      exact List.isPrefixOf_iff_prefix.mpr (List.prefix_refl T)
    rw [hTc] at hself
    rw [List.cons_append] at hself
    rw [List.cons_append, countOcc_cons, hself]
    simp only [if_true]
    have hrest : countOcc (t0 :: T') (T' ++ b) = countOcc (t0 :: T') b := by
      apply countOcc_append_no_spark
      intro i hi
      apply prefix_append_eq_false
      · have hj := h1 (i + 1) (by omega) (by rw [hTc]; simp; omega)
        rw [hTc, List.drop_succ_cons] at hj
        intro hc
        rw [hj] at hc
        exact Bool.false_ne_true hc
      · intro hc
        have := (List.isPrefixOf_iff_prefix.mp hc).length_le
        have hd := List.length_drop i T'
        simp at this
        omega
    rw [hrest]
    omega

/-- Inserting `T` right after a chunk ending in a newline adds exactly one
occurrence of `T`, when `T` is border-free and contains a newline only as its
final character: no occurrence can span the insertion point on either side.
This is the shape of fix-simulate-complete.py's import insertion, whose
insertion point is the end of an import match, hence right after a newline. -/
theorem countOcc_insert (T : List Char)
    (h1 : ∀ j, 0 < j → j < T.length → (T.drop j).isPrefixOf T = false)
    (h2 : ∀ n, 0 < n → n < T.length → (T.take n).getLast? ≠ some '\n')
    (hT : T ≠ []) :
    ∀ (a b : List Char), a.getLast? = some '\n' →
      countOcc T (a ++ (T ++ b)) = countOcc T (a ++ b) + 1 := by
  intro a
  induction a with
  | nil => intro b ha; simp at ha
  | cons c a' ih =>
    intro b ha
    have hagree := prefix_agree_insert T (c :: a') b h2 (by simp) ha
    rw [List.cons_append, List.cons_append, countOcc_cons, countOcc_cons]
    rw [List.cons_append, List.cons_append] at hagree
    rw [hagree]
    by_cases ha' : a' = []
    · subst ha'
      simp only [List.nil_append]
      rw [countOcc_self_append T b hT h1]
      omega
    · have ha'' : a'.getLast? = some '\n' := by
        cases a' with
        | nil => exact absurd rfl ha'
        | cons d l => rw [List.getLast?_cons_cons] at ha; exact ha
      rw [ih b ha'']
      omega

theorem greedyTails_suffix (f : Char → Bool) :
    ∀ (s : List Char) (prev : Option Char) (p : List Char × Option Char),
      p ∈ greedyTails f prev s → p.1 <:+ s := by
  intro s
  induction s with
  | nil =>
    intro prev p hp
    simp [greedyTails] at hp
    rw [hp]
  | cons c rest ih =>
    intro prev p hp
    rw [greedyTails] at hp
    by_cases hf : f c
    · rw [if_pos hf] at hp
      rcases List.mem_append.mp hp with h | h
      · exact (ih (some c) p h).trans (List.suffix_cons c rest)
      · simp at h
        rw [h]
    · rw [if_neg hf] at hp
      simp at hp
      rw [hp]

theorem mrun_suffix : ∀ (rx : Rx) (prev : Option Char) (s : List Char)
    (r : List Char × Option Char × Caps), r ∈ mrun rx prev s → r.1 <:+ s := by
  intro rx
  induction rx with
  | lit w =>
    intro prev s r hr
    rw [mrun] at hr
    by_cases hp : w.isPrefixOf s
    · rw [if_pos hp] at hr
      simp at hr
      rw [hr]
      exact List.drop_suffix _ _
    · rw [if_neg hp] at hr
      simp at hr
  | cls f =>
    intro prev s r hr
    cases s with
    | nil => simp [mrun] at hr
    | cons c rest =>
      simp only [mrun] at hr
      by_cases hf : f c
      · rw [if_pos hf] at hr
        simp at hr
        rw [hr]
        exact List.suffix_cons c rest
      · rw [if_neg hf] at hr
        simp at hr
  | many0 f =>
    intro prev s r hr
    rw [mrun] at hr
    rcases List.mem_map.mp hr with ⟨p, hp, rfl⟩
    exact greedyTails_suffix f s prev p hp
  | many1 f =>
    intro prev s r hr
    cases s with
    | nil => simp [mrun] at hr
    | cons c rest =>
      simp only [mrun] at hr
      by_cases hf : f c
      · rw [if_pos hf] at hr
        rcases List.mem_map.mp hr with ⟨p, hp, rfl⟩
        exact (greedyTails_suffix f rest (some c) p hp).trans (List.suffix_cons c rest)
      · rw [if_neg hf] at hr
        simp at hr
  | opt1 f =>
    intro prev s r hr
    cases s with
    | nil =>
      simp [mrun] at hr
      rw [hr]
    | cons c rest =>
      simp only [mrun] at hr
      by_cases hf : f c
      · rw [if_pos hf] at hr
        rcases List.mem_cons.mp hr with h | h
        · rw [h]
          exact List.suffix_cons c rest
        · simp at h
          rw [h]
      · rw [if_neg hf] at hr
        simp at hr
        rw [hr]
  | seq a b iha ihb =>
    intro prev s r hr
    rw [mrun] at hr
    rcases List.mem_flatMap.mp hr with ⟨r1, hr1, hmem⟩
    rcases List.mem_map.mp hmem with ⟨r2, hr2, rfl⟩
    exact (ihb r1.2.1 r1.1 r2 hr2).trans (iha prev s r1 hr1)
  | grp n a iha =>
    intro prev s r hr
    rw [mrun] at hr
    rcases List.mem_map.mp hr with ⟨r1, hr1, rfl⟩
    exact iha prev s r1 hr1
  | wordB =>
    intro prev s r hr
    rw [mrun] at hr
    by_cases hb : isWordO prev ≠ isWordO s.head?
    · rw [if_pos hb] at hr
      simp at hr
      rw [hr]
    · rw [if_neg hb] at hr
      simp at hr

theorem subRunF_succ (rx : Rx) (rep : Repl) (n : Nat) (prev : Option Char)
    (s : List Char) :
    subRunF rx rep (n + 1) prev s =
      match firstMatch rx prev s with
      | none =>
          match s with
          | [] => []
          | c :: rest => c :: subRunF rx rep n (some c) rest
      | some (rem, pv, cp) =>
          let k := s.length - rem.length
          if k = 0 then
            rep [] cp ++
              (match s with
               | [] => []
               | c :: rest => c :: subRunF rx rep n (some c) rest)
          else rep (s.take k) cp ++ subRunF rx rep n pv (s.drop k) := rfl

theorem firstMatch_mem {rx : Rx} {prev : Option Char} {s : List Char}
    {r : List Char × Option Char × Caps} (h : firstMatch rx prev s = some r) :
    r ∈ mrun rx prev s :=
  List.mem_of_mem_head? (Option.mem_def.mpr h)

theorem subRunF_prefix_invariant (rx : Rx) (rep : Repl) (T : List Char)
    (H : RuleSafe rx rep T) :
    ∀ (fuel : Nat) (prev : Option Char) (z : List Char) (l : List Char),
      l ∈ T.tails → l ≠ [] →
      l.isPrefixOf (subRunF rx rep fuel prev z) = l.isPrefixOf z := by
  intro fuel
  induction fuel with
  | zero => intro prev z l _ _; rfl
  | succ n ih =>
    intro prev z l hl hlne
    cases hfm : firstMatch rx prev z with
    | none =>
      cases z with
      | nil =>
        rw [show subRunF rx rep (n + 1) prev [] = [] from by
          rw [subRunF_succ, hfm]]
      | cons c rest =>
        rw [show subRunF rx rep (n + 1) prev (c :: rest) =
            c :: subRunF rx rep n (some c) rest from by
          rw [subRunF_succ, hfm]]
        cases l with
        | nil => exact absurd rfl hlne
        | cons x l' =>
          rw [List.isPrefixOf_cons₂, List.isPrefixOf_cons₂]
          by_cases hl' : l' = []
          · subst hl'
            simp
          · have hl'mem : l' ∈ T.tails := by
              rw [List.mem_tails] at hl ⊢
              exact (List.suffix_cons x l').trans hl
            rw [ih (some c) rest l' hl'mem hl']
    | some r =>
      obtain ⟨rem, pv, cp⟩ := r
      have hrm := firstMatch_mem hfm
      obtain ⟨hk, hstart, hrepl, -, -⟩ := H prev z (rem, pv, cp) hrm
      dsimp only at hk hstart hrepl
      rw [show subRunF rx rep (n + 1) prev z =
          rep (z.take (z.length - rem.length)) cp ++
            subRunF rx rep n pv (z.drop (z.length - rem.length)) from by
        rw [subRunF_succ, hfm]
        exact if_neg (by omega)]
      rw [hrepl l hl hlne]
      have hz : z = z.take (z.length - rem.length) ++ z.drop (z.length - rem.length) :=
        (List.take_append_drop _ z).symm
      conv_rhs => rw [hz]
      rw [hstart l hl hlne]

theorem subRunF_countOcc (rx : Rx) (rep : Repl) (T : List Char)
    (hT : T ≠ []) (H : RuleSafe rx rep T) :
    ∀ (fuel : Nat) (prev : Option Char) (z : List Char),
      countOcc T (subRunF rx rep fuel prev z) = countOcc T z := by
  intro fuel
  induction fuel with
  | zero => intro prev z; rfl
  | succ n ih =>
    intro prev z
    cases hfm : firstMatch rx prev z with
    | none =>
      cases z with
      | nil =>
        rw [show subRunF rx rep (n + 1) prev [] = [] from by rw [subRunF_succ, hfm]]
      | cons c rest =>
        rw [show subRunF rx rep (n + 1) prev (c :: rest) =
            c :: subRunF rx rep n (some c) rest from by rw [subRunF_succ, hfm]]
        rw [countOcc_cons, countOcc_cons]
        have hind : T.isPrefixOf (c :: subRunF rx rep n (some c) rest) =
            T.isPrefixOf (c :: rest) := by
          have := subRunF_prefix_invariant rx rep T H (n + 1) prev (c :: rest) T
            (by rw [List.mem_tails]) hT
          rw [show subRunF rx rep (n + 1) prev (c :: rest) =
              c :: subRunF rx rep n (some c) rest from by rw [subRunF_succ, hfm]] at this
          exact this
        rw [hind, ih (some c) rest]
    | some r =>
      obtain ⟨rem, pv, cp⟩ := r
      have hrm := firstMatch_mem hfm
      obtain ⟨hk, -, -, hmin, hrin⟩ := H prev z (rem, pv, cp) hrm
      dsimp only at hk hmin hrin
      rw [show subRunF rx rep (n + 1) prev z =
          rep (z.take (z.length - rem.length)) cp ++
            subRunF rx rep n pv (z.drop (z.length - rem.length)) from by
        rw [subRunF_succ, hfm]
        exact if_neg (by omega)]
      rw [countOcc_append_no_spark T _ _ (fun i hi => hrin i hi _)]
      rw [ih pv (z.drop (z.length - rem.length))]
      conv_rhs => rw [show z = z.take (z.length - rem.length) ++
        z.drop (z.length - rem.length) from (List.take_append_drop _ z).symm]
      rw [countOcc_append_no_spark T _ _ (fun i hi => hmin i (by
        have := List.length_take (z.length - rem.length) z
        simp at this hi
        omega) _)]

theorem ruleSafe_lit (w rw0 T : List Char) (hw : w ≠ [])
    (h1 : ∀ l ∈ T.tails, l ≠ [] → ¬ l.isPrefixOf w ∧ ¬ w.isPrefixOf l)
    (h2 : ∀ l ∈ T.tails, l ≠ [] → ¬ l.isPrefixOf rw0 ∧ ¬ rw0.isPrefixOf l)
    (h3 : ∀ i, i < w.length → ¬ (w.drop i).isPrefixOf T ∧ ¬ T.isPrefixOf (w.drop i))
    (h4 : ∀ i, i < rw0.length → ¬ (rw0.drop i).isPrefixOf T ∧ ¬ T.isPrefixOf (rw0.drop i)) :
    RuleSafe (.lit w) (fun _ _ => rw0) T := by
  intro prev s r hr
  rw [mrun] at hr
  by_cases hp : w.isPrefixOf s
  · rw [if_pos hp] at hr
    simp only [List.mem_singleton] at hr
    obtain ⟨t, rfl⟩ := List.isPrefixOf_iff_prefix.mp hp
    have hr1 : r.1 = t := by rw [hr]; simp [List.drop_left]
    have hkk : (w ++ t).length - r.1.length = w.length := by
      rw [hr1]
      simp [List.length_append]
    have htake : (w ++ t).take ((w ++ t).length - r.1.length) = w := by
      rw [hkk]
      exact List.take_left w t
    refine ⟨by rw [hkk]; exact List.length_pos.mpr hw, ?_, ?_, ?_, ?_⟩
    · intro l hl hlne x
      rw [htake]
      exact prefix_append_eq_false l w (h1 l hl hlne).2 (h1 l hl hlne).1 x
    · intro l hl hlne x
      rw [htake]
      exact prefix_append_eq_false l rw0 (h2 l hl hlne).2 (h2 l hl hlne).1 x
    · intro i hi x
      rw [htake]
      rw [hkk] at hi
      exact prefix_append_eq_false T (w.drop i) (h3 i hi).1 (h3 i hi).2 x
    · intro i hi x
      rw [htake] at hi ⊢
      exact prefix_append_eq_false T (rw0.drop i) (h4 i hi).1 (h4 i hi).2 x
  · rw [if_neg hp] at hr
    simp at hr

theorem isPrefixOf_append_cancel : ∀ (d y v : List Char),
    (d ++ y).isPrefixOf (d ++ v) = y.isPrefixOf v := by
  intro d y v
  induction d with
  | nil => rfl
  | cons c d' ih =>
    rw [List.cons_append, List.cons_append, List.isPrefixOf_cons₂, ih]
    simp

theorem head_mismatch_prefix {l v : List Char} (hl : l ≠ []) (hne : l.head? ≠ v.head?) :
    l.isPrefixOf v = false := by
  cases l with
  | nil => exact absurd rfl hl
  | cons a l' =>
    cases v with
    | nil => rfl
    | cons b v' =>
      rw [List.isPrefixOf_cons₂]
      have : (a == b) = false := by
        rw [beq_eq_false_iff_ne]
        intro hab
        exact hne (by rw [hab]; rfl)
      rw [this, Bool.false_and]

/-- Positions inside a chunk whose every tail disagrees with `T` in both
directions can never begin an occurrence of `T`. -/
theorem litChunkSafe (T u : List Char)
    (hdec : ∀ i, i < u.length → ¬ (u.drop i).isPrefixOf T ∧ ¬ T.isPrefixOf (u.drop i)) :
    ∀ i, i < u.length → ∀ y, T.isPrefixOf (u.drop i ++ y) = false :=
  fun i hi y => prefix_append_eq_false T _ (hdec i hi).1 (hdec i hi).2 y

/-- Positions inside the class-run chunk of a match (all characters satisfy
`f`) can never begin an occurrence of `T`, provided: some character of `T`
fails `f` (so `T` cannot sit inside the run), every prefix of `T` that is all
`f` is shorter than `nf` (the first failure), and `T` after fewer than `nf`
characters never continues with the head of the text that follows the run. -/
theorem classChunkSafe (T g : List Char) (f : Char → Bool) (bad : Char)
    (hbadT : bad ∈ T) (hbadf : f bad = false)
    (hall : ∀ c ∈ g, f c = true)
    (nf : Nat)
    (hnf : ∀ n, n ≤ T.length → (∀ c ∈ T.take n, f c = true) → n ≤ nf)
    (v : List Char) (hv : ∀ n, n ≤ nf → (T.drop n).isPrefixOf v = false) :
    ∀ i, i < g.length → T.isPrefixOf (g.drop i ++ v) = false := by
  intro i hi
  set d := g.drop i with hd
  have hdne : d ≠ [] := by
    rw [hd]
    intro hc
    have := List.length_drop i g
    rw [hc] at this
    simp at this
    omega
  have hdall : ∀ c ∈ d, f c = true := fun c hc => hall c (List.drop_subset i g hc)
  by_cases hdp : d.isPrefixOf T
  · have hdt : d = T.take d.length := List.prefix_iff_eq_take.mp (List.isPrefixOf_iff_prefix.mp hdp)
    have hdlen : d.length ≤ T.length := (List.isPrefixOf_iff_prefix.mp hdp).length_le
    have hdnf : d.length ≤ nf := hnf d.length hdlen (by rw [← hdt]; exact hdall)
    have hTeq : T = d ++ T.drop d.length := by
      conv_lhs => rw [← List.take_append_drop d.length T]
      rw [← hdt]
    rw [show T.isPrefixOf (d ++ v) = (T.drop d.length).isPrefixOf v from by
      conv_lhs => rw [hTeq]
      exact isPrefixOf_append_cancel d _ v]
    exact hv d.length hdnf
  · have hTd : ¬ T.isPrefixOf d := by
      intro hc
      have hsub := (List.isPrefixOf_iff_prefix.mp hc).subset
      have := hdall bad (hsub hbadT)
      rw [hbadf] at this
      exact Bool.false_ne_true this
    exact prefix_append_eq_false T d hdp hTd v

theorem greedyTails_decomp (f : Char → Bool) :
    ∀ (s : List Char) (prev : Option Char) (p : List Char × Option Char),
      p ∈ greedyTails f prev s → ∃ u, s = u ++ p.1 ∧ ∀ c ∈ u, f c = true := by
  intro s
  induction s with
  | nil =>
    intro prev p hp
    simp [greedyTails] at hp
    exact ⟨[], by simp [hp], by simp⟩
  | cons c rest ih =>
    intro prev p hp
    rw [greedyTails] at hp
    by_cases hf : f c
    · rw [if_pos hf] at hp
      rcases List.mem_append.mp hp with h | h
      · obtain ⟨u, hu, hall⟩ := ih (some c) p h
        exact ⟨c :: u, by rw [List.cons_append, ← hu], by
          intro d hd
          rcases List.mem_cons.mp hd with rfl | hd'
          · exact hf
          · exact hall d hd'⟩
      · simp at h
        exact ⟨[], by simp [h], by simp⟩
    · rw [if_neg hf] at hp
      simp at hp
      exact ⟨[], by simp [hp], by simp⟩

theorem many1_decomp {f : Char → Bool} {prev : Option Char} {s : List Char}
    {r : List Char × Option Char × Caps} (hr : r ∈ mrun (.many1 f) prev s) :
    ∃ u, s = u ++ r.1 ∧ u ≠ [] ∧ (∀ c ∈ u, f c = true) ∧ r.2.2 = [] := by
  cases s with
  | nil => simp [mrun] at hr
  | cons c rest =>
    simp only [mrun] at hr
    by_cases hf : f c
    · rw [if_pos hf] at hr
      rcases List.mem_map.mp hr with ⟨p, hp, rfl⟩
      obtain ⟨u, hu, hall⟩ := greedyTails_decomp f rest (some c) p hp
      refine ⟨c :: u, by rw [List.cons_append, ← hu], by simp, ?_, rfl⟩
      intro d hd
      rcases List.mem_cons.mp hd with rfl | hd'
      · exact hf
      · exact hall d hd'
    · rw [if_neg hf] at hr
      simp at hr

theorem lit_decomp {w : List Char} {prev : Option Char} {s : List Char}
    {r : List Char × Option Char × Caps} (hr : r ∈ mrun (.lit w) prev s) :
    s = w ++ r.1 ∧ r.2.2 = [] := by
  rw [mrun] at hr
  by_cases hp : w.isPrefixOf s
  · rw [if_pos hp] at hr
    simp only [List.mem_singleton] at hr
    obtain ⟨t, rfl⟩ := List.isPrefixOf_iff_prefix.mp hp
    rw [hr]
    simp [List.drop_left]
  · rw [if_neg hp] at hr
    simp at hr

theorem completeSim_decomp {prev : Option Char} {s : List Char}
    {r : List Char × Option Char × Caps} (hr : r ∈ mrun completeSimRx prev s) :
    ∃ g h t, s = "const ".toList ++ (g ++ ((": SimulationResult = \x7b").toList ++
        (h ++ (("\x7d;").toList ++ t)))) ∧
      r.1 = t ∧ g ≠ [] ∧ (∀ c ∈ g, isWordChar c = true) ∧
      h ≠ [] ∧ (∀ c ∈ h, notBrace c = true) ∧
      getCap 1 r.2.2 = g := by
  have hrx : completeSimRx =
      .seq (.lit ("const ".toList))
        (.seq (.grp 1 (.many1 isWordChar))
          (.seq (.lit ((": SimulationResult = \x7b").toList))
            (.seq (.grp 2 (.many1 notBrace))
              (.seq (.lit (("\x7d;").toList)) (.lit []))))) := rfl
  rw [hrx] at hr
  rw [mrun] at hr
  rcases List.mem_flatMap.mp hr with ⟨r1, hr1, hr'⟩
  rcases List.mem_map.mp hr' with ⟨r2, hr2, rfl⟩
  obtain ⟨hs1, hc1⟩ := lit_decomp hr1
  rw [mrun] at hr2
  rcases List.mem_flatMap.mp hr2 with ⟨r3, hr3, hr2'⟩
  rcases List.mem_map.mp hr2' with ⟨r4, hr4, rfl⟩
  rw [mrun] at hr3
  rcases List.mem_map.mp hr3 with ⟨r5, hr5, rfl⟩
  obtain ⟨g, hg, hgne, hgall, hc5⟩ := many1_decomp hr5
  rw [mrun] at hr4
  rcases List.mem_flatMap.mp hr4 with ⟨r6, hr6, hr4'⟩
  rcases List.mem_map.mp hr4' with ⟨r7, hr7, rfl⟩
  obtain ⟨hs6, hc6⟩ := lit_decomp hr6
  rw [mrun] at hr7
  rcases List.mem_flatMap.mp hr7 with ⟨r8, hr8, hr7'⟩
  rcases List.mem_map.mp hr7' with ⟨r9, hr9, rfl⟩
  rw [mrun] at hr8
  rcases List.mem_map.mp hr8 with ⟨rA, hrA, rfl⟩
  obtain ⟨h, hh, hhne, hhall, hcA⟩ := many1_decomp hrA
  rw [mrun] at hr9
  rcases List.mem_flatMap.mp hr9 with ⟨rB, hrB, hr9'⟩
  rcases List.mem_map.mp hr9' with ⟨rC, hrC, rfl⟩
  obtain ⟨hsB, hcB⟩ := lit_decomp hrB
  obtain ⟨hsC, hcC⟩ := lit_decomp hrC
  dsimp only at hr6 hs6 hrB hsB hrC hsC
  have hgtake : r1.1.take (r1.1.length - r5.1.length) = g := by
    rw [hg]
    have hlen : (g ++ r5.1).length - r5.1.length = g.length := by
      simp [List.length_append]
    rw [hlen]
    exact List.take_left g r5.1
  have hhtake : r6.1.take (r6.1.length - rA.1.length) = h := by
    rw [hh]
    have hlen : (h ++ rA.1).length - rA.1.length = h.length := by
      simp [List.length_append]
    rw [hlen]
    exact List.take_left h rA.1
  have hsBC : rB.1 = rC.1 := by simpa using hsC
  refine ⟨g, h, rC.1, ?_, ?_, hgne, hgall, hhne, hhall, ?_⟩
  · rw [hs1, hg, hs6, hh, hsB, hsBC]
  · simp [hsBC]
  · dsimp only
    rw [hc1, hc5, hc6, hcA, hcB, hcC, hgtake, hhtake]
    rfl

theorem safe_append (T u v : List Char)
    (hu : ∀ i, i < u.length → ∀ x, T.isPrefixOf (u.drop i ++ x) = false)
    (hv : ∀ i, i < v.length → ∀ x, T.isPrefixOf (v.drop i ++ x) = false) :
    ∀ i, i < (u ++ v).length → ∀ x, T.isPrefixOf ((u ++ v).drop i ++ x) = false := by
  intro i hi x
  by_cases hiu : i < u.length
  · rw [List.drop_append_of_le_length (Nat.le_of_lt hiu), List.append_assoc]
    exact hu i hiu (v ++ x)
  · push_neg at hiu
    obtain ⟨j, rfl⟩ := Nat.exists_eq_add_of_le hiu
    rw [List.drop_append]
    rw [List.length_append] at hi
    exact hv j (by omega) x

theorem take_append_sub (u t : List Char) :
    (u ++ t).take ((u ++ t).length - t.length) = u := by
  have hlen : (u ++ t).length - t.length = u.length := by
    simp [List.length_append]
  rw [hlen]
  exact List.take_left u t

theorem safe_append' (T u v : List Char)
    (hu : ∀ i, i < u.length → ∀ x, T.isPrefixOf (u.drop i ++ (v ++ x)) = false)
    (hv : ∀ i, i < v.length → ∀ x, T.isPrefixOf (v.drop i ++ x) = false) :
    ∀ i, i < (u ++ v).length → ∀ x, T.isPrefixOf ((u ++ v).drop i ++ x) = false := by
  intro i hi x
  by_cases hiu : i < u.length
  · rw [List.drop_append_of_le_length (Nat.le_of_lt hiu), List.append_assoc]
    exact hu i hiu x
  · push_neg at hiu
    obtain ⟨j, rfl⟩ := Nat.exists_eq_add_of_le hiu
    rw [List.drop_append]
    rw [List.length_append] at hi
    exact hv j (by omega) x

set_option maxRecDepth 80000 in
theorem tails_head_ne_c :
    ∀ l ∈ importsToAdd.tails, l ≠ [] → l.head? ≠ some 'c' := by decide

set_option maxRecDepth 80000 in
theorem importsToAdd_word_bound :
    ∀ n, n ≤ importsToAdd.length →
      (∀ c ∈ importsToAdd.take n, isWordChar c = true) → n ≤ 6 := by decide

set_option maxRecDepth 80000 in
theorem importsToAdd_drop_colon :
    ∀ n, n ≤ 6 → importsToAdd.drop n ≠ [] ∧
      (importsToAdd.drop n).head? ≠ some ':' := by decide

set_option maxRecDepth 80000 in
theorem importsToAdd_nonbrace_bound :
    ∀ n, n ≤ importsToAdd.length →
      (∀ c ∈ importsToAdd.take n, notBrace c = true) → n ≤ 38 := by decide

set_option maxRecDepth 80000 in
theorem importsToAdd_drop_bracesemi :
    ∀ n, n ≤ 38 → ("\x7d;".toList).isPrefixOf (importsToAdd.drop n) = false := by decide

set_option maxRecDepth 80000 in
theorem chunkA_safe : ∀ i, i < ("const ".toList).length →
    ¬ (("const ".toList).drop i).isPrefixOf importsToAdd ∧
    ¬ importsToAdd.isPrefixOf (("const ".toList).drop i) := by decide

set_option maxRecDepth 80000 in
theorem chunkB_safe : ∀ i, i < ((": SimulationResult = \x7b").toList).length →
    ¬ (((": SimulationResult = \x7b").toList).drop i).isPrefixOf importsToAdd ∧
    ¬ importsToAdd.isPrefixOf (((": SimulationResult = \x7b").toList).drop i) := by decide

set_option maxRecDepth 80000 in
theorem chunkC_safe : ∀ i, i < (("\x7d;").toList).length →
    ¬ (("\x7d;".toList).drop i).isPrefixOf importsToAdd ∧
    ¬ importsToAdd.isPrefixOf (("\x7d;".toList).drop i) := by decide

set_option maxRecDepth 80000 in
theorem chunkBlk_safe : ∀ i, i < completeBlockTail.length →
    ¬ (completeBlockTail.drop i).isPrefixOf importsToAdd ∧
    ¬ importsToAdd.isPrefixOf (completeBlockTail.drop i) := by decide

theorem ruleSafe_completeSim : RuleSafe completeSimRx completeSimRepl importsToAdd := by
  intro prev s r hr
  obtain ⟨g, h, t, hs, hrt, hgne, hgall, hhne, hhall, hcap⟩ := completeSim_decomp hr
  have hm : s.take (s.length - r.1.length) =
      "const ".toList ++ (g ++ ((": SimulationResult = \x7b").toList ++
        (h ++ ("\x7d;").toList))) := by
    rw [hs, hrt]
    have hre : "const ".toList ++ (g ++ ((": SimulationResult = \x7b").toList ++
        (h ++ (("\x7d;").toList ++ t)))) =
        ("const ".toList ++ (g ++ ((": SimulationResult = \x7b").toList ++
          (h ++ ("\x7d;").toList)))) ++ t := by
      simp [List.append_assoc]
    rw [hre, take_append_sub]
  have hR : completeSimRepl (s.take (s.length - r.1.length)) r.2.2 =
      "const ".toList ++ (g ++ completeBlockTail) := by
    show "const ".toList ++ getCap 1 r.2.2 ++ completeBlockTail = _
    rw [hcap, List.append_assoc]
  have hk : 0 < s.length - r.1.length := by
    rw [hs, hrt]
    simp [List.length_append]
    omega
  have hkeq : s.length - r.1.length =
      ("const ".toList ++ (g ++ ((": SimulationResult = \x7b").toList ++
        (h ++ ("\x7d;").toList)))).length := by
    rw [hs, hrt]
    simp [List.length_append]
    omega
  have hheadc : ∀ y x : List Char, (("const ".toList ++ y) ++ x).head? = some 'c' :=
    fun _ _ => rfl
  have hgsafe : ∀ v : List Char, (∀ n, n ≤ 6 → (importsToAdd.drop n).isPrefixOf v = false) →
      ∀ i, i < g.length → importsToAdd.isPrefixOf (g.drop i ++ v) = false :=
    fun v hv => classChunkSafe importsToAdd g isWordChar ' ' (by decide) (by decide)
      hgall 6 importsToAdd_word_bound v hv
  have hhsafe : ∀ v : List Char, (∀ n, n ≤ 38 → (importsToAdd.drop n).isPrefixOf v = false) →
      ∀ i, i < h.length → importsToAdd.isPrefixOf (h.drop i ++ v) = false :=
    fun v hv => classChunkSafe importsToAdd h notBrace '\x7d' (by decide) (by decide)
      hhall 38 importsToAdd_nonbrace_bound v hv
  have hcolonv : ∀ (y x : List Char), ((((": SimulationResult = \x7b").toList) ++ y) ++ x).head? = some ':' :=
    fun _ _ => rfl
  have hblkhead : ∀ x : List Char, (completeBlockTail ++ x).head? = some ':' :=
    fun _ => rfl
  refine ⟨hk, ?_, ?_, ?_, ?_⟩
  · intro l hl hlne x
    rw [hm]
    apply head_mismatch_prefix hlne
    rw [List.append_assoc]
    rw [show ("const ".toList ++ ((g ++ ((": SimulationResult = \x7b").toList ++
      (h ++ ("\x7d;").toList))) ++ x)).head? = some 'c' from rfl]
    exact tails_head_ne_c l hl hlne
  · intro l hl hlne x
    rw [hR]
    apply head_mismatch_prefix hlne
    rw [List.append_assoc]
    rw [show ("const ".toList ++ ((g ++ completeBlockTail) ++ x)).head? = some 'c' from rfl]
    exact tails_head_ne_c l hl hlne
  · rw [hm, hkeq]
    apply safe_append' importsToAdd
    · intro i hi x
      exact litChunkSafe importsToAdd ("const ".toList) chunkA_safe i hi _
    apply safe_append' importsToAdd
    · intro i hi x
      apply hgsafe
      intro n hn
      apply head_mismatch_prefix (importsToAdd_drop_colon n hn).1
      rw [show (((": SimulationResult = \x7b").toList ++ (h ++ ("\x7d;").toList)) ++ x).head? =
        some ':' from rfl]
      exact (importsToAdd_drop_colon n hn).2
      exact hi
    apply safe_append' importsToAdd
    · intro i hi x
      exact litChunkSafe importsToAdd ((": SimulationResult = \x7b").toList) chunkB_safe i hi _
    apply safe_append' importsToAdd
    · intro i hi x
      apply hhsafe
      intro n hn
      have hlen2 : (("\x7d;").toList).length ≤ (importsToAdd.drop n).length := by
        rw [List.length_drop]
        have : importsToAdd.length = 73 := by decide
        simp [this]
        omega
      rw [isPrefixOf_append_split ("\x7d;").toList (importsToAdd.drop n) x hlen2]
      rw [importsToAdd_drop_bracesemi n hn, Bool.false_and]
      exact hi
    · intro i hi x
      exact litChunkSafe importsToAdd (("\x7d;").toList) chunkC_safe i hi _
  · rw [hR]
    apply safe_append' importsToAdd
    · intro i hi x
      exact litChunkSafe importsToAdd ("const ".toList) chunkA_safe i hi _
    apply safe_append' importsToAdd
    · intro i hi x
      apply hgsafe
      intro n hn
      apply head_mismatch_prefix (importsToAdd_drop_colon n hn).1
      rw [show (completeBlockTail ++ x).head? = some ':' from rfl]
      exact (importsToAdd_drop_colon n hn).2
      exact hi
    · intro i hi x
      exact litChunkSafe importsToAdd completeBlockTail chunkBlk_safe i hi _

theorem transform_eq_afterImports (s : List Char) :
    fix_simulate_vault_complete_transform s = afterImports (insertImports s) := rfl

theorem prevOut_cons (c : Char) (d : List Char) (prev : Option Char) :
    prevOut (c :: d) prev = prevOut d (some c) := by
  cases d with
  | nil => rfl
  | cons e d' =>
    simp only [prevOut]
    rw [List.getLast?_cons_cons]
    cases h : (e :: d').getLast? with
    | none => simp at h
    | some x => rfl

theorem lit_mem (w t : List Char) (prev : Option Char) :
    (t, prevOut w prev, ([] : Caps)) ∈ mrun (.lit w) prev (w ++ t) := by
  rw [mrun]
  rw [if_pos (List.isPrefixOf_iff_prefix.mpr (List.prefix_append w t))]
  simp only [prevOut, List.drop_left, List.mem_singleton]

theorem litNil_mem (t : List Char) (prev : Option Char) :
    (t, prev, ([] : Caps)) ∈ mrun (.lit []) prev t := by
  have h := lit_mem [] t prev
  simpa [prevOut] using h

theorem cls_mem (f : Char → Bool) (c : Char) (hc : f c = true) (t : List Char)
    (prev : Option Char) :
    (t, some c, ([] : Caps)) ∈ mrun (.cls f) prev (c :: t) := by
  simp only [mrun]
  rw [if_pos hc]
  exact List.mem_singleton.mpr rfl

theorem greedyTails_mem (f : Char → Bool) :
    ∀ (d t : List Char) (prev : Option Char), (∀ c ∈ d, f c = true) →
      (t, prevOut d prev) ∈ greedyTails f prev (d ++ t) := by
  intro d
  induction d with
  | nil =>
    intro t prev _
    cases t with
    | nil => simp [greedyTails, prevOut]
    | cons c rest =>
      rw [List.nil_append, greedyTails]
      by_cases hf : f c
      · rw [if_pos hf]
        exact List.mem_append.mpr (Or.inr (by simp [prevOut]))
      · rw [if_neg hf]
        simp [prevOut]
  | cons c d' ih =>
    intro t prev hall
    rw [List.cons_append, greedyTails, if_pos (hall c (by simp)), prevOut_cons]
    exact List.mem_append.mpr (Or.inl (ih t (some c) (fun x hx => hall x (by simp [hx]))))

theorem many1_mem (f : Char → Bool) (c : Char) (hc : f c = true) (d t : List Char)
    (prev : Option Char) (hall : ∀ x ∈ d, f x = true) :
    (t, prevOut d (some c), ([] : Caps)) ∈ mrun (.many1 f) prev (c :: (d ++ t)) := by
  simp only [mrun]
  rw [if_pos hc]
  exact List.mem_map.mpr ⟨(t, prevOut d (some c)), greedyTails_mem f d t (some c) hall, rfl⟩

theorem seq_mem_intro {a b : Rx} {prev : Option Char} {s : List Char}
    {r1 r2 : List Char × Option Char × Caps}
    (h1 : r1 ∈ mrun a prev s) (h2 : r2 ∈ mrun b r1.2.1 r1.1) :
    (r2.1, r2.2.1, r1.2.2 ++ r2.2.2) ∈ mrun (.seq a b) prev s := by
  rw [mrun]
  exact List.mem_flatMap.mpr ⟨r1, h1, List.mem_map.mpr ⟨r2, h2, rfl⟩⟩

set_option maxRecDepth 80000 in
theorem importRx_match (pv : Option Char) (b : List Char) :
    (firstMatch importRx pv (importsToAdd ++ b)).isSome = true := by
  have hrx : importRx =
      .seq (.lit ("import".toList))
        (.seq (.many1 notSemi)
          (.seq (.lit ("from ".toList))
            (.seq (.cls isQuoteChar)
              (.seq (.many1 notQuoteSemi)
                (.seq (.cls isQuoteChar)
                  (.seq (.lit ((";\n").toList)) (.lit []))))))) := rfl
  have h0 : importsToAdd =
      "import".toList ++ (' ' :: (("type \x7b Vault, SimulationResult \x7d ").toList ++
        ("from ".toList ++ ('\x27' :: ('.' :: (("./../types/generated.js").toList ++
          ('\x27' :: ((";\n").toList)))))))) := by decide
  have hT : importsToAdd ++ b =
      "import".toList ++ (' ' :: (("type \x7b Vault, SimulationResult \x7d ").toList ++
        ("from ".toList ++ ('\x27' :: ('.' :: (("./../types/generated.js").toList ++
          ('\x27' :: ((";\n").toList ++ b)))))))) := by
    rw [h0]
    simp [List.append_assoc]
  have key : mrun importRx pv (importsToAdd ++ b) ≠ [] := by
    rw [hrx, hT]
    apply List.ne_nil_of_mem
    apply seq_mem_intro (lit_mem ("import".toList) _ pv)
    apply seq_mem_intro (many1_mem notSemi ' ' (by decide)
      (("type \x7b Vault, SimulationResult \x7d ").toList) _ _ (by decide))
    apply seq_mem_intro (lit_mem ("from ".toList) _ _)
    apply seq_mem_intro (cls_mem isQuoteChar '\x27' (by decide) _ _)
    apply seq_mem_intro (many1_mem notQuoteSemi '.' (by decide)
      (("./../types/generated.js").toList) _ _ (by decide))
    apply seq_mem_intro (cls_mem isQuoteChar '\x27' (by decide) _ _)
    apply seq_mem_intro (lit_mem ((";\n").toList) b _)
    exact litNil_mem b _
  cases hM : mrun importRx pv (importsToAdd ++ b) with
  | nil => exact absurd hM key
  | cons x xs =>
    rw [firstMatch, hM]
    rfl

theorem anyMatch_append (rx : Rx) :
    ∀ (a z : List Char) (prev : Option Char),
      (∀ pv, (firstMatch rx pv z).isSome = true) → anyMatch rx prev (a ++ z) = true := by
  intro a
  induction a with
  | nil =>
    intro z prev h
    cases z with
    | nil => rw [List.nil_append, anyMatch]; exact h prev
    | cons c rest =>
      rw [List.nil_append, anyMatch, h prev]
      rfl
  | cons c a' ih =>
    intro z prev h
    rw [List.cons_append, anyMatch, ih z (some c) h]
    simp

theorem findEndsF_succ (rx : Rx) (n : Nat) (prev : Option Char) (pos : Nat)
    (s : List Char) :
    findEndsF rx (n + 1) prev pos s =
      match firstMatch rx prev s with
      | none =>
          match s with
          | [] => []
          | c :: rest => findEndsF rx n (some c) (pos + 1) rest
      | some (rem, pv, _) =>
          let k := s.length - rem.length
          if k = 0 then
            match s with
            | [] => [pos]
            | c :: rest => pos :: findEndsF rx n (some c) (pos + 1) rest
          else (pos + k) :: findEndsF rx n pv (pos + k) (s.drop k) := rfl

theorem cls_decomp {f : Char → Bool} {prev : Option Char} {s : List Char}
    {r : List Char × Option Char × Caps} (hr : r ∈ mrun (.cls f) prev s) :
    ∃ c, s = c :: r.1 ∧ f c = true := by
  cases s with
  | nil => simp [mrun] at hr
  | cons c rest =>
    simp only [mrun] at hr
    by_cases hf : f c
    · rw [if_pos hf] at hr
      simp only [List.mem_singleton] at hr
      exact ⟨c, by rw [hr], hf⟩
    · rw [if_neg hf] at hr
      simp at hr

/-- Every match of the import pattern consumes text that ends with the two
characters `;` and a newline (the pattern's final literal). -/
theorem importRx_consumed {prev : Option Char} {s : List Char}
    {r : List Char × Option Char × Caps} (hr : r ∈ mrun importRx prev s) :
    ∃ u, s = u ++ (';' :: '\n' :: r.1) := by
  have hrx : importRx =
      .seq (.lit ("import".toList))
        (.seq (.many1 notSemi)
          (.seq (.lit ("from ".toList))
            (.seq (.cls isQuoteChar)
              (.seq (.many1 notQuoteSemi)
                (.seq (.cls isQuoteChar)
                  (.seq (.lit ((";\n").toList)) (.lit []))))))) := rfl
  rw [hrx] at hr
  rw [mrun] at hr
  rcases List.mem_flatMap.mp hr with ⟨r1, hr1, hr'⟩
  rcases List.mem_map.mp hr' with ⟨r2, hr2, rfl⟩
  obtain ⟨hs1, -⟩ := lit_decomp hr1
  rw [mrun] at hr2
  rcases List.mem_flatMap.mp hr2 with ⟨r3, hr3, hr2'⟩
  rcases List.mem_map.mp hr2' with ⟨r4, hr4, rfl⟩
  obtain ⟨u2, hs3, -, -, -⟩ := many1_decomp hr3
  rw [mrun] at hr4
  rcases List.mem_flatMap.mp hr4 with ⟨r5, hr5, hr4'⟩
  rcases List.mem_map.mp hr4' with ⟨r6, hr6, rfl⟩
  obtain ⟨hs5, -⟩ := lit_decomp hr5
  rw [mrun] at hr6
  rcases List.mem_flatMap.mp hr6 with ⟨r7, hr7, hr6'⟩
  rcases List.mem_map.mp hr6' with ⟨r8, hr8, rfl⟩
  obtain ⟨c7, hs7, -⟩ := cls_decomp hr7
  rw [mrun] at hr8
  rcases List.mem_flatMap.mp hr8 with ⟨r9, hr9, hr8'⟩
  rcases List.mem_map.mp hr8' with ⟨rA, hrA, rfl⟩
  obtain ⟨u9, hs9, -, -, -⟩ := many1_decomp hr9
  rw [mrun] at hrA
  rcases List.mem_flatMap.mp hrA with ⟨rB, hrB, hrA'⟩
  rcases List.mem_map.mp hrA' with ⟨rC, hrC, rfl⟩
  obtain ⟨cB, hsB, -⟩ := cls_decomp hrB
  rw [mrun] at hrC
  rcases List.mem_flatMap.mp hrC with ⟨rD, hrD, hrC'⟩
  rcases List.mem_map.mp hrC' with ⟨rE, hrE, rfl⟩
  obtain ⟨hsD, -⟩ := lit_decomp hrD
  obtain ⟨hsE, -⟩ := lit_decomp hrE
  dsimp only at hs1 hs3 hs5 hs7 hs9 hsB hsD hsE ⊢
  refine ⟨"import".toList ++ (u2 ++ ("from ".toList ++ (c7 :: (u9 ++ [cB])))), ?_⟩
  rw [hs1, hs3, hs5, hs7, hs9, hsB, hsD]
  rw [show ((";\n").toList : List Char) = ';' :: ['\n'] from rfl]
  rw [List.nil_append] at hsE
  rw [hsE]
  simp [List.append_assoc]

/-- The consumed prefix of an import-pattern match is nonempty and ends with a
newline. -/
theorem importRx_take {prev : Option Char} {s : List Char}
    {r : List Char × Option Char × Caps} (hr : r ∈ mrun importRx prev s) :
    0 < s.length - r.1.length ∧ s.length - r.1.length ≤ s.length ∧
      (s.take (s.length - r.1.length)).getLast? = some '\n' := by
  obtain ⟨u, hu⟩ := importRx_consumed hr
  have hlen : s.length = u.length + 2 + r.1.length := by
    rw [hu]
    simp [List.length_append]
    omega
  have hk : s.length - r.1.length = u.length + 2 := by omega
  refine ⟨by omega, by omega, ?_⟩
  rw [hk]
  have htake : s.take (u.length + 2) = u ++ [';', '\n'] := by
    rw [hu]
    rw [show (';' :: '\n' :: r.1) = [';', '\n'] ++ r.1 from rfl]
    rw [← List.append_assoc]
    rw [show u.length + 2 = (u ++ [';', '\n']).length from by simp]
    exact List.take_left _ _
  rw [htake]
  simp [List.getLast?_append]

theorem getLast?_cons_of_newline {l : List Char} (c : Char)
    (h : l.getLast? = some '\n') : (c :: l).getLast? = some '\n' := by
  rw [show c :: l = [c] ++ l from rfl, List.getLast?_append, h]
  rfl

/-- Every end position reported by the `re.finditer` scan of the import
pattern lies strictly inside the scanned window and cuts the text right after
a newline. -/
theorem findEndsF_ends : ∀ (fuel : Nat) (prev : Option Char) (pos : Nat)
    (s : List Char) (e : Nat), e ∈ findEndsF importRx fuel prev pos s →
      pos < e ∧ e ≤ pos + s.length ∧ (s.take (e - pos)).getLast? = some '\n' := by
  intro fuel
  induction fuel with
  | zero =>
    intro prev pos s e he
    simp [findEndsF] at he
  | succ n ih =>
    intro prev pos s e he
    rw [findEndsF_succ] at he
    cases hfm : firstMatch importRx prev s with
    | none =>
      rw [hfm] at he
      cases s with
      | nil => simp at he
      | cons c rest =>
        obtain ⟨h1, h2, h3⟩ := ih (some c) (pos + 1) rest e he
        refine ⟨by omega, ?_, ?_⟩
        · simp only [List.length_cons]
          omega
        · have hd : e - pos = (e - (pos + 1)) + 1 := by omega
          rw [hd, List.take_succ_cons]
          exact getLast?_cons_of_newline c h3
    | some r =>
      obtain ⟨rem, pv, cp⟩ := r
      rw [hfm] at he
      have hmem := firstMatch_mem hfm
      obtain ⟨hk0, hkle, hlast⟩ := importRx_take hmem
      dsimp only at hk0 hkle hlast he
      rw [if_neg (by omega)] at he
      rcases List.mem_cons.mp he with rfl | he'
      · refine ⟨by omega, by omega, ?_⟩
        rw [Nat.add_sub_cancel_left]
        exact hlast
      · obtain ⟨h1, h2, h3⟩ :=
          ih pv (pos + (s.length - rem.length)) (s.drop (s.length - rem.length)) e he'
        have hdl : (s.drop (s.length - rem.length)).length =
            s.length - (s.length - rem.length) := List.length_drop _ _
        refine ⟨by omega, by omega, ?_⟩
        have hsplit : e - pos =
            (s.length - rem.length) + (e - (pos + (s.length - rem.length))) := by omega
        rw [hsplit, List.take_add]
        rw [List.getLast?_append, h3]
        rfl

/-- When the scan finds at least one match, the end-position list is
nonempty. -/
theorem findEndsF_ne_nil (rx : Rx) :
    ∀ (s : List Char) (fuel : Nat) (prev : Option Char) (pos : Nat),
      s.length < fuel → anyMatch rx prev s = true → findEndsF rx fuel prev pos s ≠ [] := by
  intro s
  induction s with
  | nil =>
    intro fuel prev pos hf ha
    cases fuel with
    | zero => omega
    | succ n =>
      rw [findEndsF_succ]
      rw [anyMatch] at ha
      cases hfm : firstMatch rx prev [] with
      | none => rw [hfm] at ha; simp at ha
      | some r =>
        obtain ⟨rem, pv, cp⟩ := r
        dsimp only
        rw [if_pos (by simp)]
        simp
  | cons c rest ih =>
    intro fuel prev pos hf ha
    cases fuel with
    | zero => simp at hf
    | succ n =>
      rw [findEndsF_succ]
      cases hfm : firstMatch rx prev (c :: rest) with
      | none =>
        rw [anyMatch, hfm] at ha
        simp only [Option.isSome_none, Bool.false_or] at ha
        have hf' : rest.length < n := by
          simp only [List.length_cons] at hf
          omega
        exact ih n (some c) (pos + 1) hf' ha
      | some r =>
        obtain ⟨rem, pv, cp⟩ := r
        dsimp only
        by_cases hk : (c :: rest).length - rem.length = 0
        · rw [if_pos hk]
          simp
        · rw [if_neg hk]
          simp

/-- For an input with at least one import match, the last match's end is a
position strictly inside the text that cuts it right after a newline. -/
theorem lastMatchEnd_importRx {s : List Char} (h : anyMatch importRx none s = true) :
    ∃ e, lastMatchEnd importRx s = some e ∧ 0 < e ∧ e ≤ s.length ∧
      (s.take e).getLast? = some '\n' := by
  have hne := findEndsF_ne_nil importRx s (s.length + 1) none 0 (by omega) h
  cases hL : (findEndsF importRx (s.length + 1) none 0 s).getLast? with
  | none => exact absurd (List.getLast?_eq_none_iff.mp hL) hne
  | some e =>
    have hmem := List.mem_of_getLast?_eq_some hL
    obtain ⟨h1, h2, h3⟩ := findEndsF_ends (s.length + 1) none 0 s e hmem
    refine ⟨e, ?_, by omega, by simpa using h2, by simpa using h3⟩
    rw [lastMatchEnd]
    exact hL

set_option maxRecDepth 80000 in
theorem importsToAdd_borderfree :
    ∀ j, j < importsToAdd.length → 0 < j →
      (importsToAdd.drop j).isPrefixOf importsToAdd = false := by decide

set_option maxRecDepth 80000 in
theorem importsToAdd_inner_newline :
    ∀ n, n < importsToAdd.length → 0 < n →
      (importsToAdd.take n).getLast? ≠ some '\n' := by decide

set_option maxRecDepth 80000 in
theorem ruleSafe_mockVaultState :
    RuleSafe (rlit "mockVault.state") (constRepl "(mockVault as any).state")
      importsToAdd :=
  ruleSafe_lit ("mockVault.state".toList) (("(mockVault as any).state").toList)
    importsToAdd (by decide) (by decide) (by decide) (by decide) (by decide)

set_option maxRecDepth 80000 in
theorem ruleSafe_asVault :
    RuleSafe (rlit "as Vault") (constRepl "as any") importsToAdd :=
  ruleSafe_lit ("as Vault".toList) ("as any".toList) importsToAdd
    (by decide) (by decide) (by decide) (by decide) (by decide)

set_option maxRecDepth 80000 in
theorem ruleSafe_viMocked :
    RuleSafe
      (rlit "vi.mocked(graphqlClient).request.mockResolvedValueOnce(\x7b vault: mockVault \x7d);")
      (constRepl "vi.mocked(graphqlClient).request.mockResolvedValueOnce(\x7b vault: mockVault \x7d as any);")
      importsToAdd :=
  ruleSafe_lit
    (("vi.mocked(graphqlClient).request.mockResolvedValueOnce(\x7b vault: mockVault \x7d);").toList)
    (("vi.mocked(graphqlClient).request.mockResolvedValueOnce(\x7b vault: mockVault \x7d as any);").toList)
    importsToAdd (by decide) (by decide) (by decide) (by decide) (by decide)

set_option maxRecDepth 80000 in
theorem ruleSafe_request :
    RuleSafe (rlit ".request.mockResolvedValueOnce(\x7b vault: mockVault \x7d)")
      (constRepl ".request.mockResolvedValueOnce(\x7b vault: mockVault \x7d as any)")
      importsToAdd :=
  ruleSafe_lit ((".request.mockResolvedValueOnce(\x7b vault: mockVault \x7d)").toList)
    ((".request.mockResolvedValueOnce(\x7b vault: mockVault \x7d as any)").toList)
    importsToAdd (by decide) (by decide) (by decide) (by decide) (by decide)

theorem pySub_countOcc (rx : Rx) (rep : Repl) (H : RuleSafe rx rep importsToAdd)
    (u : List Char) :
    countOcc importsToAdd (pySub rx rep u) = countOcc importsToAdd u :=
  subRunF_countOcc rx rep importsToAdd (by decide) H (u.length + 1) none u

/-- The import-insertion step adds exactly one occurrence of the inserted
line. -/
theorem insertImports_countOcc (u : List Char)
    (h : anyMatch importRx none u = true) :
    countOcc importsToAdd (insertImports u) = countOcc importsToAdd u + 1 := by
  obtain ⟨e, he, hpos, hle, hlast⟩ := lastMatchEnd_importRx h
  rw [insertImports, he]
  have hins := countOcc_insert importsToAdd
    (fun j hj hjlen => importsToAdd_borderfree j hjlen hj)
    (fun n hn hnlen => importsToAdd_inner_newline n hnlen hn)
    (by decide) (u.take e) (u.drop e) hlast
  rw [List.take_append_drop] at hins
  show countOcc importsToAdd (u.take e ++ importsToAdd ++ u.drop e) = _
  rw [List.append_assoc]
  exact hins

/-- One run of fix-simulate-complete.py on a text with at least one import
match adds exactly one copy of the inserted import line: the insertion step
adds one, and none of the five substitution rules can create or destroy a
copy. -/
theorem transform_countOcc (u : List Char) (h : anyMatch importRx none u = true) :
    countOcc importsToAdd (fix_simulate_vault_complete_transform u) =
      countOcc importsToAdd u + 1 := by
  rw [show fix_simulate_vault_complete_transform u =
      pySub (rlit ".request.mockResolvedValueOnce(\x7b vault: mockVault \x7d)")
        (constRepl ".request.mockResolvedValueOnce(\x7b vault: mockVault \x7d as any)")
        (pySub (rlit "vi.mocked(graphqlClient).request.mockResolvedValueOnce(\x7b vault: mockVault \x7d);")
          (constRepl "vi.mocked(graphqlClient).request.mockResolvedValueOnce(\x7b vault: mockVault \x7d as any);")
          (pySub (rlit "as Vault") (constRepl "as any")
            (pySub (rlit "mockVault.state") (constRepl "(mockVault as any).state")
              (pySub completeSimRx completeSimRepl (insertImports u))))) from rfl]
  rw [pySub_countOcc _ _ ruleSafe_request, pySub_countOcc _ _ ruleSafe_viMocked,
      pySub_countOcc _ _ ruleSafe_asVault, pySub_countOcc _ _ ruleSafe_mockVaultState,
      pySub_countOcc _ _ ruleSafe_completeSim]
  exact insertImports_countOcc u h

/-- A text containing the import line verbatim has at least one import-pattern
match. -/
theorem anyMatch_of_countOcc {u : List Char}
    (h : countOcc importsToAdd u ≠ 0) : anyMatch importRx none u = true := by
  obtain ⟨a, b, hab⟩ := countOcc_exists_decomp importsToAdd u h
  rw [hab, List.append_assoc]
  exact anyMatch_append importRx a _ none (fun pv => importRx_match pv b)

/-- C9: on every input with at least one import statement matching the
pattern `import ... from '...';` followed by a newline, fix-simulate-complete.py
inserts the line `import type { Vault, SimulationResult } from
'../../types/generated.js';` immediately after the end position of the last
such import (whatever its other rules then do to the result), and every
repeated run of the script inserts exactly one additional copy of that line. -/
theorem import_insertion_spec (s : List Char)
    (h : anyMatch importRx none s = true) :
    (∃ e, lastMatchEnd importRx s = some e ∧
        fix_simulate_vault_complete_transform s =
          afterImports (s.take e ++ importsToAdd ++ s.drop e)) ∧
    ∀ n : Nat,
      countOcc importsToAdd (fix_simulate_vault_complete_transform^[n] s) =
        countOcc importsToAdd s + n := by
  have key : ∀ n : Nat,
      countOcc importsToAdd (fix_simulate_vault_complete_transform^[n] s) =
        countOcc importsToAdd s + n ∧
      anyMatch importRx none (fix_simulate_vault_complete_transform^[n] s) = true := by
    intro n
    induction n with
    | zero => exact ⟨by simp, by simpa using h⟩
    | succ n ih =>
      rw [Function.iterate_succ_apply']
      have hstep := transform_countOcc _ ih.2
      refine ⟨by rw [hstep, ih.1]; omega, ?_⟩
      apply anyMatch_of_countOcc
      rw [hstep]
      omega
  obtain ⟨e, he, -, -, -⟩ := lastMatchEnd_importRx h
  refine ⟨⟨e, he, ?_⟩, fun n => (key n).1⟩
  rw [transform_eq_afterImports, insertImports, he]

/-- Witness for C9 at the concrete input `import a from 'b';` plus newline. -/
theorem import_insertion_witness :
    (∃ e, lastMatchEnd importRx (("import a from \x27b\x27;\n").toList) = some e ∧
        fix_simulate_vault_complete_transform (("import a from \x27b\x27;\n").toList) =
          afterImports ((("import a from \x27b\x27;\n").toList).take e ++ importsToAdd ++
            (("import a from \x27b\x27;\n").toList).drop e)) ∧
    ∀ n : Nat,
      countOcc importsToAdd
          (fix_simulate_vault_complete_transform^[n] (("import a from \x27b\x27;\n").toList)) =
        countOcc importsToAdd (("import a from \x27b\x27;\n").toList) + n :=
  import_insertion_spec (("import a from \x27b\x27;\n").toList) (by decide)
